import Mathlib

/-!
Verification of the mangrove chess-engine core: a shallow embedding of the
bitboard layer (`crates/mangrove-bootstrap/src/bitboard.rs`), the position
model (`hash-core/src/board.rs`), the score encoding
(`hash-search/src/score.rs`) and the search-thread loop
(`hash-search/src/search.rs`), together with proofs of the specification
claims about them.

Machine integers are embedded as `Nat` (for the 64-bit bitboards, with
explicit `% 2 ^ 64` where Rust wrapping matters) and `Int` (for the `i16`
score values, whose operations never overflow on the ranges involved).
-/

namespace Mangrove

/-! ## Colors and squares

`Color` is from `bitboard.rs`; squares use the fixed bit-index mapping of the
`bb!` macro: square index = file + 8 * rank, A1 = 0, H1 = 7, A8 = 56, H8 = 63.
-/

inductive Color where
  | white
  | black
deriving DecidableEq, Repr

/-- `impl Not for Color`: negation yields the opposite color. -/
def Color.not : Color → Color
  | .white => .black
  | .black => .white

abbrev Squ := Fin 64

/-- `Square::file`: the file index (0 = A .. 7 = H) of a square. -/
def Squ.file (s : Squ) : Nat := s.val % 8

/-- `Square::rank`: the rank index (0 = rank 1 .. 7 = rank 8) of a square. -/
def Squ.rank (s : Squ) : Nat := s.val / 8

/-! ## BitBoard

A bitboard is a 64-bit unsigned integer, embedded as a `Nat` below `2 ^ 64`.
Constants are the ones defined via the `bb!` macro in `bitboard.rs`,
written out as numerals under the A1 = bit 0 mapping.
-/

/-- Width of the bitboard integer. -/
def bbWidth : Nat := 64

/-- `BitBoard::EMPTY`. -/
def bbEMPTY : Nat := 0

/-- `BitBoard::FULL` (`u64::MAX`). -/
def bbFULL : Nat := 2 ^ 64 - 1

/-- `BitBoard::A_FILE`: bits at indices ≡ 0 (mod 8). -/
def bbA_FILE : Nat := 0x0101010101010101

/-- `BitBoard::H_FILE`: bits at indices ≡ 7 (mod 8). -/
def bbH_FILE : Nat := 0x8080808080808080

/-- `BitBoard::RANK_1`: bits 0..7. -/
def bbRANK_1 : Nat := 0xFF

/-- `BitBoard::RANK_8`: bits 56..63. -/
def bbRANK_8 : Nat := 0xFF00000000000000

/-- `impl Not for BitBoard`: `u64` complement, i.e. xor with all ones. -/
def bbNot (b : Nat) : Nat := bbFULL ^^^ b

/-- `BitBoard::shift_visually_right(n)`: `u64` left shift, truncating. -/
def shiftVisuallyRight (b n : Nat) : Nat := (b <<< n) % 2 ^ 64

/-- `BitBoard::shift_visually_left(n)`: `u64` right shift. -/
def shiftVisuallyLeft (b n : Nat) : Nat := b >>> n

/-- `BitBoard::move_one_up`: one rank up relative to the color, masking out
the departing top rank before shifting. -/
def moveOneUp (c : Color) (b : Nat) : Nat :=
  match c with
  | .white => shiftVisuallyRight (b &&& bbNot bbRANK_8) 8
  | .black => shiftVisuallyLeft (b &&& bbNot bbRANK_1) 8

/-- `BitBoard::move_one_down`: defined in the source as `move_one_up(!color)`. -/
def moveOneDown (c : Color) (b : Nat) : Nat := moveOneUp c.not b

/-- `BitBoard::move_one_right`: one file towards H relative to the color,
masking out the departing edge file before shifting. -/
def moveOneRight (c : Color) (b : Nat) : Nat :=
  match c with
  | .white => shiftVisuallyRight (b &&& bbNot bbH_FILE) 1
  | .black => shiftVisuallyLeft (b &&& bbNot bbA_FILE) 1

/-- `BitBoard::move_one_left`: defined in the source as `move_one_right(!color)`. -/
def moveOneLeft (c : Color) (b : Nat) : Nat := moveOneRight c.not b

/-- `BitBoard::move_one_up_right`. -/
def moveOneUpRight (c : Color) (b : Nat) : Nat := moveOneRight c (moveOneUp c b)

/-- `BitBoard::move_one_up_left`. -/
def moveOneUpLeft (c : Color) (b : Nat) : Nat := moveOneLeft c (moveOneUp c b)

/-- The single-bit bitboard of a square (`Square::as_bitboard` /
`BitBoard::from(square)`). -/
def squareBB (s : Squ) : Nat := 2 ^ s.val

/-- `BitBoard::get_bit`. -/
def getBit (b : Nat) (s : Squ) : Bool := b &&& squareBB s != 0

/-- `BitBoard::is_a_single_one` (`u64::is_power_of_two`). -/
def isASingleOne (b : Nat) : Bool := decide (∃ i : Fin 64, b = 2 ^ i.val)

/-- The rank that is "up"-most relative to a color: rank 8 for White,
rank 1 for Black. -/
def topRank (c : Color) : Nat :=
  match c with
  | .white => 7
  | .black => 0

/-- The rank a wrapped-around vertical move would land on: the relative
bottom rank. -/
def bottomRankBB (c : Color) : Nat :=
  match c with
  | .white => bbRANK_1
  | .black => bbRANK_8

/-- The file a wrapped-around `move_one_right` would land on: the relative
leftmost file (A for White, H for Black). -/
def leftFileBB (c : Color) : Nat :=
  match c with
  | .white => bbA_FILE
  | .black => bbH_FILE

/-! ## Score (`hash-search/src/score.rs`)

`Score.value` is an `i16`; it is embedded as an `Int`.  On the ranges
produced by the two constructors the Rust arithmetic never overflows
(`|signum d * 32767 - d| ≤ 32767` for every `i16` distance `d`), so plain
`Int` arithmetic is a faithful embedding.
-/

/-- `Score::MATE_MAXIMUM = i16::MAX`. -/
def MATE_MAXIMUM : Int := 32767

/-- `Score::SCORE_MAXIMUM`. -/
def SCORE_MAXIMUM : Int := 10

structure Score where
  value : Int
deriving DecidableEq, Repr

/-- `Score::DRAW`. -/
def Score.DRAW : Score := ⟨0⟩

/-- `Score::from_mate_distance(distance) = signum(distance) * MATE_MAXIMUM - distance`. -/
def fromMateDistance (distance : Int) : Score :=
  ⟨distance.sign * MATE_MAXIMUM - distance⟩

/-- `Score::from_evaluation(eval)`: clamp to `[-SCORE_MAXIMUM, SCORE_MAXIMUM]`. -/
def fromEvaluation (eval : Int) : Score :=
  ⟨max (-SCORE_MAXIMUM) (min SCORE_MAXIMUM eval)⟩

/-- `impl Display for Score`: values above `SCORE_MAXIMUM` render as `#`
followed by `(MATE_MAXIMUM * signum(value) - value + 1) / 2`; everything
else renders as the raw value.  (Both `/` operands are nonnegative in the
mate branch, so `Int` division agrees with Rust's truncating division.) -/
def displayScore (s : Score) : String :=
  if SCORE_MAXIMUM < s.value then
    "#" ++ toString ((MATE_MAXIMUM * s.value.sign - s.value + 1) / 2)
  else
    toString s.value

end Mangrove

namespace Mangrove

/-! ## Claim C10 -/

/-- C10: `Score::from_mate_distance(0)` is exactly `Score::DRAW`: a zero mate
distance produces the finite draw encoding, not a mate-band encoding. -/
theorem score_from_mate_distance_zero_eq_draw : fromMateDistance 0 = Score.DRAW := by
  decide

/-! ## Claim C6

The claim says every `from_mate_distance` value of either sign renders as
`#` plus the signed half-move distance.  The code only uses the `#` format
for values strictly above `SCORE_MAXIMUM`, so every negative mate encoding
renders as its raw value; and the number printed is `(distance + 1) / 2`
(a full-move count), not the half-move distance.
-/

/-- C6 counterexample: `from_mate_distance(-1)` — a mate score with nonzero
distance — renders as the raw value `"-32766"`, not as `#` followed by a
signed distance. -/
theorem display_mate_negative_counterexample :
    displayScore (fromMateDistance (-1)) = "-32766" := by decide

/-- C6 (amended): a positive mate encoding `from_mate_distance n` with
`0 < n ≤ MATE_MAXIMUM - SCORE_MAXIMUM - 1` renders as `#` followed by
`(n + 1) / 2`; every negative-distance mate encoding renders as its raw
value `-(MATE_MAXIMUM + n)` with no `#`; and every finite score
`from_evaluation e` renders as its raw clamped value. -/
theorem display_score_amended (n e : Int) :
    (0 < n → n ≤ MATE_MAXIMUM - SCORE_MAXIMUM - 1 →
      displayScore (fromMateDistance n) = "#" ++ toString ((n + 1) / 2)) ∧
    (-32768 ≤ n → n < 0 →
      displayScore (fromMateDistance n) = toString (-(MATE_MAXIMUM + n))) ∧
    displayScore (fromEvaluation e) = toString (max (-SCORE_MAXIMUM) (min SCORE_MAXIMUM e)) := by
  refine ⟨fun h1 h2 => ?_, fun h1 h2 => ?_, ?_⟩
  · have hs : n.sign = 1 := Int.sign_eq_one_of_pos h1
    have hv : (fromMateDistance n).value = 32767 - n := by
      simp [fromMateDistance, hs, MATE_MAXIMUM]
    have hlt : SCORE_MAXIMUM < (fromMateDistance n).value := by
      rw [hv]; simp only [SCORE_MAXIMUM, MATE_MAXIMUM] at *; omega
    have hvsign : (32767 - n).sign = 1 := by
      apply Int.sign_eq_one_of_pos
      rw [hv] at hlt
      simp only [SCORE_MAXIMUM] at hlt; omega
    rw [displayScore, if_pos hlt, hv, hvsign]
    congr 2
    simp only [MATE_MAXIMUM]; ring_nf
  · have hs : n.sign = -1 := Int.sign_eq_neg_one_of_neg h2
    have hv : (fromMateDistance n).value = -32767 - n := by
      simp only [fromMateDistance, hs, MATE_MAXIMUM]; ring
    have hle : ¬ SCORE_MAXIMUM < (fromMateDistance n).value := by
      rw [hv]; simp only [SCORE_MAXIMUM]; omega
    rw [displayScore, if_neg hle, hv]
    congr 1
    simp only [MATE_MAXIMUM]; ring
  · have hle : ¬ SCORE_MAXIMUM < (fromEvaluation e).value := by
      simp only [fromEvaluation, SCORE_MAXIMUM]; omega
    rw [displayScore, if_neg hle]; rfl

/-- Witness for the amended C6 display claim at `n = 3`, `e = 25`:
`from_mate_distance(3)` renders as `"#2"` and `from_evaluation(25)` renders
as the clamp `"10"`. -/
theorem display_score_amended_witness :
    displayScore (fromMateDistance 3) = "#" ++ toString ((3 + 1 : Int) / 2) ∧
    displayScore (fromEvaluation 25) =
      toString (max (-SCORE_MAXIMUM) (min SCORE_MAXIMUM 25)) := by
  exact ⟨(display_score_amended 3 25).1 (by decide) (by decide),
         (display_score_amended 3 25).2.2⟩

/-! ## Claim C7

As stated the claim quantifies over every nonzero `i16` mate distance; it
fails at the extremes of the `i16` range: `from_mate_distance(32767)` has
value `0`, whose magnitude is not larger than that of `from_evaluation(1)`.
Restricted away from the extreme distances everything holds.
-/

/-- C7 counterexample: with the `i16` mate distance `n = 32767` and
evaluation `e = 1`, the magnitude of `from_mate_distance n` (namely `0`) is
not strictly greater than the magnitude of `from_evaluation e` (namely `1`). -/
theorem mate_magnitude_counterexample :
    ¬ (fromEvaluation 1).value.natAbs < (fromMateDistance 32767).value.natAbs := by
  decide

/-- C7 (amended): for nonzero `i16` mate distances `n, m` with
`|n| < |m| ≤ MATE_MAXIMUM`, the magnitude of `from_mate_distance n` strictly
exceeds that of `from_mate_distance m`; for nonzero `n` with
`|n| ≤ MATE_MAXIMUM - SCORE_MAXIMUM - 1` it strictly exceeds the magnitude
of every `from_evaluation e`, which is clamped to
`[-SCORE_MAXIMUM, SCORE_MAXIMUM]`; and for `0 < |n| ≤ MATE_MAXIMUM - 1`,
`from_mate_distance n` is positive exactly when `n` is positive. -/
theorem mate_distance_ordering (n m e : Int)
    (hn : n ≠ 0) :
    (m ≠ 0 → n.natAbs < m.natAbs → m.natAbs ≤ 32767 →
      (fromMateDistance m).value.natAbs < (fromMateDistance n).value.natAbs) ∧
    (n.natAbs ≤ 32756 →
      (fromEvaluation e).value.natAbs < (fromMateDistance n).value.natAbs) ∧
    (-SCORE_MAXIMUM ≤ (fromEvaluation e).value ∧ (fromEvaluation e).value ≤ SCORE_MAXIMUM) ∧
    (n.natAbs ≤ 32766 → (0 < (fromMateDistance n).value ↔ 0 < n)) := by
  have habs : ∀ k : Int, k ≠ 0 → k.natAbs ≤ 32767 →
      (fromMateDistance k).value.natAbs = 32767 - k.natAbs := by
    intro k hk hkb
    rcases lt_or_gt_of_ne hk with hneg | hpos
    · have hs : k.sign = -1 := Int.sign_eq_neg_one_of_neg hneg
      simp only [fromMateDistance, hs, MATE_MAXIMUM]
      omega
    · have hs : k.sign = 1 := Int.sign_eq_one_of_pos hpos
      simp only [fromMateDistance, hs, MATE_MAXIMUM]
      omega
  refine ⟨fun hm hlt hmb => ?_, fun hb => ?_, ?_, fun hb => ?_⟩
  · rw [habs n hn (by omega), habs m hm hmb]
    omega
  · rw [habs n hn (by omega)]
    simp only [fromEvaluation, SCORE_MAXIMUM]
    omega
  · simp only [fromEvaluation, SCORE_MAXIMUM]
    omega
  · rcases lt_or_gt_of_ne hn with hneg | hpos
    · have hs : n.sign = -1 := Int.sign_eq_neg_one_of_neg hneg
      simp only [fromMateDistance, hs, MATE_MAXIMUM]
      omega
    · have hs : n.sign = 1 := Int.sign_eq_one_of_pos hpos
      simp only [fromMateDistance, hs, MATE_MAXIMUM]
      omega

/-- Witness for the amended C7 ordering at `n = 2`, `m = -5`, `e = 100`. -/
theorem mate_distance_ordering_witness :
    (fromMateDistance (-5)).value.natAbs < (fromMateDistance 2).value.natAbs ∧
    (fromEvaluation 100).value.natAbs < (fromMateDistance 2).value.natAbs ∧
    (0 < (fromMateDistance 2).value ↔ 0 < (2 : Int)) := by
  obtain ⟨h1, h2, _, h4⟩ := mate_distance_ordering 2 (-5) 100 (by decide)
  exact ⟨h1 (by decide) (by decide) (by decide), h2 (by decide), h4 (by decide)⟩

/-! ## Bit-level facts about the directional masks (for claim C5) -/

/-- A value below `2 ^ 64` is determined by its first 64 bits. -/
theorem testBit_of_lt_two_pow_64 {m : Nat} (hm : m < 2 ^ 64) (f : Fin 64 → Bool)
    (hf : ∀ j : Fin 64, m.testBit j.val = f j) (i : Nat) :
    m.testBit i = if h : i < 64 then f ⟨i, h⟩ else false := by
  split
  · exact hf ⟨i, by assumption⟩
  · exact Nat.testBit_lt_two_pow (lt_of_lt_of_le hm (Nat.pow_le_pow_right (by norm_num) (by omega)))

theorem testBit_bbA_FILE (i : Nat) :
    bbA_FILE.testBit i = if _h : i < 64 then decide (i % 8 = 0) else false := by
  have := testBit_of_lt_two_pow_64 (m := bbA_FILE) (by norm_num [bbA_FILE])
    (fun j => decide (j.val % 8 = 0)) (by decide) i
  exact this

theorem testBit_bbH_FILE (i : Nat) :
    bbH_FILE.testBit i = if _h : i < 64 then decide (i % 8 = 7) else false := by
  have := testBit_of_lt_two_pow_64 (m := bbH_FILE) (by norm_num [bbH_FILE])
    (fun j => decide (j.val % 8 = 7)) (by decide) i
  exact this

theorem testBit_bbRANK_8 (i : Nat) :
    bbRANK_8.testBit i = if _h : i < 64 then decide (56 ≤ i) else false := by
  have := testBit_of_lt_two_pow_64 (m := bbRANK_8) (by norm_num [bbRANK_8])
    (fun j => decide (56 ≤ j.val)) (by decide) i
  exact this

theorem testBit_bbFULL (i : Nat) : bbFULL.testBit i = decide (i < 64) := by
  simpa [bbFULL] using Nat.testBit_two_pow_sub_one 64 i

/-! ## Claim C5 -/

/-- C5: for every color `c` and square `s`, moving the single-bit board at
`s` one rank up then one rank down relative to `c` returns the original
board, unless `s` lies on the relative top rank, in which case the up-move
yields `EMPTY`; and no directional move ever places a bit on the board line
it would wrap around to (the departing rank or file is masked out before
the shift): a relative up-move leaves the relative bottom rank clear and a
relative right-move leaves the relative leftmost file clear. -/
theorem move_one_roundtrip_and_no_wrap :
    (∀ (c : Color) (s : Squ),
      (s.rank = topRank c → moveOneUp c (squareBB s) = bbEMPTY) ∧
      (s.rank ≠ topRank c → moveOneDown c (moveOneUp c (squareBB s)) = squareBB s)) ∧
    (∀ (c : Color) (b : Nat), b < 2 ^ 64 →
      moveOneUp c b &&& bottomRankBB c = 0 ∧
      moveOneRight c b &&& leftFileBB c = 0) := by
  constructor
  · intro c
    cases c <;> decide
  · intro c b hb
    cases c
    case white =>
      constructor
      · -- ((b &&& !RANK_8) <<< 8) % 2 ^ 64 has no bit among bits 0..7
        show ((b &&& bbNot bbRANK_8) <<< 8) % 2 ^ 64 &&& bbRANK_1 = 0
        have h1 : bbRANK_1 = 2 ^ 8 - 1 := by norm_num [bbRANK_1]
        rw [h1, Nat.and_pow_two_sub_one_eq_mod,
          Nat.mod_mod_of_dvd _ (by norm_num : (2 ^ 8 : Nat) ∣ 2 ^ 64),
          Nat.shiftLeft_eq, Nat.mul_mod_left]
      · -- ((b &&& !H_FILE) <<< 1) % 2 ^ 64 has no bit on the A file
        show ((b &&& bbNot bbH_FILE) <<< 1) % 2 ^ 64 &&& bbA_FILE = 0
        apply Nat.eq_of_testBit_eq
        intro i
        simp only [Nat.testBit_and, Nat.testBit_mod_two_pow, Nat.testBit_shiftLeft,
          Nat.zero_testBit, testBit_bbA_FILE, bbNot, Nat.testBit_xor, testBit_bbFULL,
          testBit_bbH_FILE]
        rcases Nat.lt_or_ge i 64 with hi | hi
        · rcases Nat.eq_zero_or_pos i with hz | hpos
          · subst hz; simp
          · by_cases hmod : i % 8 = 0
            · have h7 : (i - 1) % 8 = 7 := by omega
              have h64 : i - 1 < 64 := by omega
              simp [hmod, h7, h64, Nat.le_of_lt_succ, show 1 ≤ i from hpos, hi]
            · simp [hmod, hi]
        · simp [show ¬ i < 64 from by omega]
    case black =>
      constructor
      · -- (b &&& !RANK_1) >>> 8 is below 2 ^ 56, so misses RANK_8
        show (b &&& bbNot bbRANK_1) >>> 8 &&& bbRANK_8 = 0
        apply Nat.eq_of_testBit_eq
        intro i
        have hlt : (b &&& bbNot bbRANK_1) >>> 8 < 2 ^ 56 := by
          rw [Nat.shiftRight_eq_div_pow]
          have : b &&& bbNot bbRANK_1 < 2 ^ 64 :=
            lt_of_le_of_lt Nat.and_le_left hb
          omega
        simp only [Nat.testBit_and, Nat.zero_testBit, testBit_bbRANK_8]
        rcases Nat.lt_or_ge i 56 with hi | hi
        · by_cases h64 : i < 64 <;> simp [h64, show ¬ 56 ≤ i from by omega]
        · have : ((b &&& bbNot bbRANK_1) >>> 8).testBit i = false :=
            Nat.testBit_lt_two_pow
              (lt_of_lt_of_le hlt (Nat.pow_le_pow_right (by norm_num) hi))
          simp [this]
      · -- (b &&& !A_FILE) >>> 1 has no bit on the H file
        show (b &&& bbNot bbA_FILE) >>> 1 &&& bbH_FILE = 0
        apply Nat.eq_of_testBit_eq
        intro i
        simp only [Nat.testBit_and, Nat.testBit_shiftRight, Nat.zero_testBit,
          testBit_bbH_FILE, bbNot, Nat.testBit_xor, testBit_bbFULL, testBit_bbA_FILE]
        rcases Nat.lt_or_ge i 64 with hi | hi
        · by_cases hmod : i % 8 = 7
          · have h0 : (1 + i) % 8 = 0 := by omega
            by_cases h64 : 1 + i < 64
            · simp [hmod, h0, h64, hi]
            · have : b.testBit (1 + i) = false :=
                Nat.testBit_lt_two_pow
                  (lt_of_lt_of_le hb (Nat.pow_le_pow_right (by norm_num) (by omega)))
              simp [this, hi, hmod]
          · simp [hmod, hi]
        · simp [show ¬ i < 64 from by omega]

/-- Witness for C5 at concrete inputs: the roundtrip at square E2 (index 12)
for White, the vanishing case at E8 (index 60) for White, and no-wrap for
the concrete board `0x8100000000000081` for both colors. -/
theorem move_one_roundtrip_witness :
    moveOneDown .white (moveOneUp .white (squareBB ⟨12, by decide⟩)) =
      squareBB ⟨12, by decide⟩ ∧
    moveOneUp .white (squareBB ⟨60, by decide⟩) = bbEMPTY ∧
    moveOneUp .black 0x8100000000000081 &&& bottomRankBB .black = 0 ∧
    moveOneRight .white 0x8100000000000081 &&& leftFileBB .white = 0 := by
  refine ⟨(move_one_roundtrip_and_no_wrap.1 .white ⟨12, by decide⟩).2 (by decide),
    (move_one_roundtrip_and_no_wrap.1 .white ⟨60, by decide⟩).1 (by decide),
    (move_one_roundtrip_and_no_wrap.2 .black 0x8100000000000081 (by norm_num)).1,
    (move_one_roundtrip_and_no_wrap.2 .white 0x8100000000000081 (by norm_num)).2⟩


/-! ## SearchThread worker loop (`hash-search/src/search.rs`, claim C9)

The worker owns its tree and repeatedly polls the command channel
non-blockingly.  The channels and the tree are external to the worker;
they are modelled as a finite list of observed poll events and an abstract
tree interface.
-/

/-- `SearchCommand` from `search.rs`, with an abstract move payload. -/
inductive SearchCommand (M : Type) where
  | sendAndPlayBestMove
  | playedMove (m : M)

/-- One observation of `command_receiver.try_recv()`.  For a `command`
event, `receiverAlive` records whether the controller still holds the
result-channel receiver when the worker processes the command (it decides
whether `best_move_sender.send` succeeds). -/
inductive PollEvent (M : Type) where
  | empty
  | disconnected
  | command (c : SearchCommand M) (receiverAlive : Bool)

/-- Modelled from the spec: the search tree (`Tree`) is an external
component (spec section 4.4) consumed through `expand`, `best_move` and
`advance`; `advance` returns the re-rooted tree, or nothing when the move
has no corresponding expanded child. -/
structure TreeModel (T M : Type) where
  expand : T → T
  bestMove : T → M
  advance : T → M → Option T

/-- How the worker loop ends within the observed event window. -/
inductive WorkerOutcome where
  | terminated
  | panicked
  | running
deriving DecidableEq, Repr

/-- The observable result of the worker loop: how it ended, the moves
successfully sent on the result channel (in order), and how many times the
tree was advanced. -/
structure WorkerResult (M : Type) where
  outcome : WorkerOutcome
  sent : List M
  advances : Nat

/-- The worker loop spawned by `SearchThread::new`, one iteration per poll
event: `Empty` performs one `expand`; `Disconnected` returns;
`SendAndPlayBestMove` computes `best_move`, sends it (returning silently if
the receiver is gone) and then advances, `unwrap`-panicking if the advance
fails; `PlayedMove` advances, `expect`-panicking if the advance fails. -/
def runWorker {T M : Type} (tm : TreeModel T M) :
    List (PollEvent M) → T → WorkerResult M
  | [], _ => ⟨.running, [], 0⟩
  | .empty :: evs, t => runWorker tm evs (tm.expand t)
  | .disconnected :: _, _ => ⟨.terminated, [], 0⟩
  | .command .sendAndPlayBestMove alive :: evs, t =>
      let m := tm.bestMove t
      if alive then
        match tm.advance t m with
        | some tNew =>
            let r := runWorker tm evs tNew
            ⟨r.outcome, m :: r.sent, r.advances + 1⟩
        | none => ⟨.panicked, [m], 0⟩
      else ⟨.terminated, [], 0⟩
  | .command (.playedMove mv) _ :: evs, t =>
      match tm.advance t mv with
      | some tNew =>
          let r := runWorker tm evs tNew
          ⟨r.outcome, r.sent, r.advances + 1⟩
      | none => ⟨.panicked, [], 0⟩

/-- Does a poll event carry a `SendAndPlayBestMove` command? -/
def PollEvent.isBestMoveCmd {M : Type} : PollEvent M → Bool
  | .command .sendAndPlayBestMove _ => true
  | _ => false

/-! ## Claim C9 -/

/-- C9: in the worker loop, (1) observing `Disconnected` terminates the
worker at once with nothing sent and no tree advance; (2) receiving
`SendAndPlayBestMove` when the result receiver is dropped terminates the
worker silently (no panic) with nothing sent and no advance; (3) moves are
sent only in response to `SendAndPlayBestMove` commands: a window without
such a command sends nothing; (4) a worker whose command sender is dropped
immediately after construction — any number of empty polls followed by
`Disconnected` — terminates normally (join succeeds) having sent nothing. -/
theorem search_worker_loop {T M : Type} (tm : TreeModel T M)
    (evs : List (PollEvent M)) (t : T) (k : Nat) :
    runWorker tm (.disconnected :: evs) t = ⟨.terminated, [], 0⟩ ∧
    runWorker tm (.command .sendAndPlayBestMove false :: evs) t =
      ⟨.terminated, [], 0⟩ ∧
    ((∀ e ∈ evs, e.isBestMoveCmd = false) → (runWorker tm evs t).sent = []) ∧
    runWorker tm (List.replicate k .empty ++ [.disconnected]) t =
      ⟨.terminated, [], 0⟩ := by
  refine ⟨rfl, rfl, ?_, ?_⟩
  · clear k
    induction evs generalizing t with
    | nil => intro _; rfl
    | cons e rest ih =>
      intro h
      have he : e.isBestMoveCmd = false := h e (by simp)
      have hrest : ∀ x ∈ rest, PollEvent.isBestMoveCmd x = false :=
        fun x hx => h x (by simp [hx])
      match e with
      | .empty => exact ih (tm.expand t) hrest
      | .disconnected => rfl
      | .command .sendAndPlayBestMove alive => simp [PollEvent.isBestMoveCmd] at he
      | .command (.playedMove mv) alive =>
        show (runWorker tm (.command (.playedMove mv) alive :: rest) t).sent = []
        rw [runWorker]
        cases tm.advance t mv with
        | some tNew => exact ih tNew hrest
        | none => rfl
  · clear evs
    induction k generalizing t with
    | zero => rfl
    | succ n ih =>
      show runWorker tm (.empty :: (List.replicate n .empty ++ [.disconnected])) t = _
      rw [runWorker]
      exact ih (tm.expand t)

/-- Witness for C9 at a concrete tree model (`T = M = Nat`) and a concrete
event window with no best-move command. -/
theorem search_worker_loop_witness :
    (runWorker ⟨Nat.succ, fun t => t, fun t _ => some t⟩
      [.empty, .command (.playedMove 3) true, .empty] 0).sent = [] := by
  exact (search_worker_loop ⟨Nat.succ, fun t => t, fun t _ => some t⟩
    [.empty, .command (.playedMove 3) true, .empty] 0 0).2.2.1 (by decide)



/-! ## Pieces, moves and coordinate-move parsing
(`hash-core/src/board.rs::interpret_move`, claim C3) -/

inductive PieceKind where
  | pawn
  | knight
  | bishop
  | rook
  | queen
  | king
deriving DecidableEq, Repr

structure Piece where
  kind : PieceKind
  color : Color
deriving DecidableEq, Repr

/-- `MoveMeta` from `hash-core/src/repr.rs` as used by `board.rs`. -/
inductive MoveMeta where
  | none
  | doublePush
  | enPassant
  | promotion (kind : PieceKind)
  | castleKs
  | castleQs
deriving DecidableEq, Repr

/-- `Move` from `hash-core/src/repr.rs` as used by `board.rs`. -/
structure ChessMove where
  origin : Squ
  target : Squ
  movedPieceKind : PieceKind
  meta : MoveMeta
deriving DecidableEq, Repr

def sqE1 : Squ := ⟨4, by decide⟩
def sqE8 : Squ := ⟨60, by decide⟩
def sqG1 : Squ := ⟨6, by decide⟩
def sqG8 : Squ := ⟨62, by decide⟩
def sqC1 : Squ := ⟨2, by decide⟩
def sqC8 : Squ := ⟨58, by decide⟩

/-- Modelled from the spec: `Square::from_str` lives in the external
`hash_build` crate, absent from this source tree.  Spec section 6: square
text is two case-sensitive lowercase characters, a file letter `a`–`h`
followed by a rank digit `1`–`8`; anything else is a parse error.  The
index follows the fixed mapping file + 8 * rank. -/
def squareFromChars (cf cr : Char) : Except String Squ :=
  if hf : 97 ≤ cf.toNat ∧ cf.toNat ≤ 104 then
    if hr : 49 ≤ cr.toNat ∧ cr.toNat ≤ 56 then
      .ok ⟨(cf.toNat - 97) + 8 * (cr.toNat - 49), by omega⟩
    else .error "invalid square"
  else .error "invalid square"

/-- The trailing promotion-letter parse of `interpret_move`:
`q`/`r`/`b`/`n` name the promotion piece, anything else is
`Err("Invalid promotion piece")`. -/
def promotionFromChar (c : Char) : Except String MoveMeta :=
  if c = 'q' then .ok (.promotion .queen)
  else if c = 'r' then .ok (.promotion .rook)
  else if c = 'b' then .ok (.promotion .bishop)
  else if c = 'n' then .ok (.promotion .knight)
  else .error "Invalid promotion piece"

/-- `Board::interpret_move`, as a function of the piece-placement view
`pieceAt` (the result of `Board::get_piece` per square) and the move text
as a list of characters.  It is pure: the board is read, never written. -/
def interpretMove (pieceAt : Squ → Option Piece) (s : List Char) :
    Except String ChessMove :=
  if s.length < 4 ∨ 5 < s.length then .error "Input too short"
  else
    match s with
    | c0 :: c1 :: c2 :: c3 :: rest =>
      match squareFromChars c0 c1 with
      | .error e => .error e
      | .ok origin =>
        match squareFromChars c2 c3 with
        | .error e => .error e
        | .ok target =>
          match pieceAt origin with
          | none => .error "Move is impossible in the given context"
          | some piece =>
            let mkMove : MoveMeta → ChessMove := fun meta =>
              ⟨origin, target, piece.kind, meta⟩
            if piece.kind = .king ∧ (origin = sqE1 ∨ origin = sqE8) then
              if target = sqG1 ∨ target = sqG8 then .ok (mkMove .castleKs)
              else if target = sqC1 ∨ target = sqC8 then .ok (mkMove .castleQs)
              else .ok (mkMove .none)
            else if piece.kind = .pawn then
              if (origin.rank = 1 ∨ origin.rank = 6) ∧
                  (target.rank = 3 ∨ target.rank = 4) then
                .ok (mkMove .doublePush)
              else if origin.file ≠ target.file ∧ pieceAt target = none then
                .ok (mkMove .enPassant)
              else
                match rest with
                | [c4] => (promotionFromChar c4).map mkMove
                | _ => .ok (mkMove .none)
            else .ok (mkMove .none)
    | _ => .error "Input too short"

/-- The exact failure condition of `interpret_move`, stated on the input
data: bad length, malformed origin or target square text, empty origin
square, or — only when the move parses as a pawn promotion (pawn at the
origin, not a double-push pattern, not an en-passant pattern, length 5) —
an invalid trailing promotion letter. -/
def interpretMoveFails (pieceAt : Squ → Option Piece) (s : List Char) : Bool :=
  match s with
  | c0 :: c1 :: c2 :: c3 :: rest =>
    if rest.length ≥ 2 then true
    else
      match squareFromChars c0 c1 with
      | .error _ => true
      | .ok origin =>
        match squareFromChars c2 c3 with
        | .error _ => true
        | .ok target =>
          match pieceAt origin with
          | none => true
          | some piece =>
            !(decide (piece.kind = .king) && decide (origin = sqE1 ∨ origin = sqE8)) &&
            decide (piece.kind = .pawn) &&
            !(decide (origin.rank = 1 ∨ origin.rank = 6) &&
              decide (target.rank = 3 ∨ target.rank = 4)) &&
            !(decide (origin.file ≠ target.file) && decide (pieceAt target = none)) &&
            (match rest with
             | [c4] => !(decide (c4 = 'q') || decide (c4 = 'r') ||
                         decide (c4 = 'b') || decide (c4 = 'n'))
             | _ => false)
  | _ => true

/-! ## Claim C3

The claim asserts a parse failure whenever the input has length 5 and its
fifth character is not one of `q`, `r`, `b`, `n`.  The code only examines
the fifth character on the pawn-promotion parse path, so a five-character
move of any non-pawn piece succeeds regardless of its trailing letter.
-/

/-- A demonstration board: a single White knight on G1. -/
def knightOnG1 : Squ → Option Piece := fun sq =>
  if sq = sqG1 then some ⟨.knight, .white⟩ else none

/-- C3 counterexample: on a board with a knight on g1, the five-character
input `"g1f3x"` — whose fifth character is not a promotion letter —
succeeds, contradicting the claimed failure condition. -/
theorem interpret_move_promotion_letter_counterexample :
    ("g1f3x".toList.length = 5 ∧ "g1f3x".toList.getLast? = some 'x') ∧
    interpretMove knightOnG1 "g1f3x".toList =
      .ok ⟨sqG1, ⟨21, by decide⟩, .knight, .none⟩ := by
  constructor
  · constructor <;> rfl
  · rfl

/-- C3 (amended): `interpret_move` fails with a recoverable parse error —
and, on the character-level model, never crashes — exactly when the input
length is not 4 or 5, or a square substring is malformed, or no piece
occupies the origin square, or the move parses as a pawn promotion (pawn
at origin, no double-push or en-passant pattern, length 5) whose fifth
character is not one of `q`, `r`, `b`, `n`; in all other cases it succeeds,
and it never mutates the board (it is a pure function of the placement). -/
theorem interpret_move_error_characterization
    (pieceAt : Squ → Option Piece) (s : List Char) :
    (interpretMove pieceAt s).isOk = !interpretMoveFails pieceAt s := by
  unfold interpretMove interpretMoveFails
  match s with
  | [] => rfl
  | [c0] => rfl
  | [c0, c1] => rfl
  | [c0, c1, c2] => rfl
  | c0 :: c1 :: c2 :: c3 :: rest =>
    dsimp only
    by_cases hlen : rest.length ≥ 2
    · rw [if_pos (Or.inr (by simp only [List.length_cons]; omega)), if_pos hlen]
      rfl
    · rw [if_neg (by simp only [List.length_cons]; omega :
          ¬ ((c0 :: c1 :: c2 :: c3 :: rest).length < 4 ∨
            5 < (c0 :: c1 :: c2 :: c3 :: rest).length)),
        if_neg hlen]
      cases h0 : squareFromChars c0 c1 with
      | error e => rfl
      | ok origin =>
        dsimp only
        cases h1 : squareFromChars c2 c3 with
        | error e => rfl
        | ok target =>
          dsimp only
          cases h2 : pieceAt origin with
          | none => rfl
          | some piece =>
            dsimp only
            by_cases hking : piece.kind = .king ∧ (origin = sqE1 ∨ origin = sqE8)
            · rw [if_pos hking]
              simp only [hking.1, hking.2, decide_True, Bool.and_true, Bool.true_and,
                Bool.not_true, Bool.false_and, Bool.not_false]
              split
              · rfl
              · split <;> rfl
            · rw [if_neg hking]
              have hknot : (decide (piece.kind = PieceKind.king) &&
                  decide (origin = sqE1 ∨ origin = sqE8)) = false := by
                rcases Decidable.not_and_iff_or_not.mp hking with h | h <;> simp [h]
              rw [hknot]
              by_cases hpawn : piece.kind = .pawn
              · rw [if_pos hpawn]
                simp only [hpawn, decide_True, Bool.not_false, Bool.true_and]
                by_cases hdp : (origin.rank = 1 ∨ origin.rank = 6) ∧
                    (target.rank = 3 ∨ target.rank = 4)
                · rw [if_pos hdp]
                  simp only [hdp.1, hdp.2, decide_True, Bool.and_true, Bool.true_and,
                    Bool.not_true, Bool.false_and, Bool.and_false, Bool.not_false]
                  rfl
                · rw [if_neg hdp]
                  have hdpb : (decide (origin.rank = 1 ∨ origin.rank = 6) &&
                      decide (target.rank = 3 ∨ target.rank = 4)) = false := by
                    rcases Decidable.not_and_iff_or_not.mp hdp with h | h <;> simp [h]
                  rw [hdpb]
                  by_cases hep : origin.file ≠ target.file ∧ pieceAt target = none
                  · rw [if_pos hep]
                    have hepb : (decide (origin.file ≠ target.file) &&
                        decide (pieceAt target = none)) = true := by
                      simp [hep.1, hep.2]
                    rw [hepb]
                    rfl
                  · rw [if_neg hep]
                    have hepb : (decide (origin.file ≠ target.file) &&
                        decide (pieceAt target = none)) = false := by
                      rcases Decidable.not_and_iff_or_not.mp hep with h | h <;> simp [h]
                    rw [hepb]
                    simp only [Bool.not_false, Bool.true_and, Bool.and_true]
                    rcases rest with _ | ⟨c4, _ | ⟨c5, r2⟩⟩
                    · rfl
                    · dsimp only
                      unfold promotionFromChar
                      by_cases hq : c4 = 'q'
                      · rw [if_pos hq]; simp [hq, Except.map, Except.isOk, Except.toBool]
                      · rw [if_neg hq]
                        by_cases hr : c4 = 'r'
                        · rw [if_pos hr]; simp [hq, hr, Except.map, Except.isOk, Except.toBool]
                        · rw [if_neg hr]
                          by_cases hb : c4 = 'b'
                          · rw [if_pos hb]; simp [hq, hr, hb, Except.map, Except.isOk, Except.toBool]
                          · rw [if_neg hb]
                            by_cases hn : c4 = 'n'
                            · rw [if_pos hn]; simp [hq, hr, hb, hn, Except.map, Except.isOk, Except.toBool]
                            · rw [if_neg hn]; simp [hq, hr, hb, hn, Except.map, Except.isOk, Except.toBool]
                    · exfalso
                      simp only [List.length_cons] at hlen
                      omega
              · rw [if_neg hpawn]
                simp [hpawn, Except.isOk, Except.toBool]


/-! ## The position model for move application
(`hash-core/src/board.rs::make_move_unchecked`, claims C1 and C8)

The Rust `Board` stores a kind-only `piece_table` plus per-player piece and
occupation bitboards (`repr.rs`, external to this source tree); the color of
the piece on a square is derived from which player's occupation holds the
square (`Board::get_piece`).  The embedding folds the two into the single
placement map `pieceAt : Squ → Option Piece` that `get_piece` exposes, and
keeps the remaining hash-relevant state: side to move, both players'
square-indexed castling-rights tables, and the en-passant data.  The
constraint fields (`pins`, `valid_targets`, `king_must_move`, dangers) are
recomputed from scratch after every move and never feed the hash; they are
modelled with claim C2.

Modelled from the spec: the Zobrist component tables `zobrist_piece`,
`zobrist_side`, `zobrist_castling_rights` and `zobrist_ep_file` live in the
missing `index` module.  The spec describes them as independent per-feature
random components combined by XOR, so the development is parameterized over
arbitrary component functions: every hash theorem below holds for every
choice of components, which formalizes that the incremental update is
performed only by XOR of per-feature components and never by recomputation.
-/

/-- `EpData` from `repr.rs` as used by `board.rs`: the double-stepped pawn's
square and the capture-point bitboard a capturing pawn must land on. -/
structure EpData where
  capturePoint : Nat
  pawn : Squ
deriving DecidableEq, Repr

/-- The Zobrist component tables of the `index` module (see above). -/
structure ZTables where
  zPiece : Piece → Squ → Nat
  zSide : Color → Nat
  zCastling : (Squ → Bool) → Nat
  zEpFile : Nat → Nat

/-- The hash-relevant state of `Board`: placement view, side to move, the
two players' castling-rights tables (in side-relative slots, swapped after
every move) and en-passant data, plus the incrementally maintained hash. -/
structure BoardH where
  pieceAt : Squ → Option Piece
  currentColor : Color
  currentCastling : Squ → Bool
  opposingCastling : Squ → Bool
  epData : Option EpData
  hash : Nat

/-- The Zobrist contribution of one square of a placement. -/
def pieceContrib (Z : ZTables) (pa : Squ → Option Piece) (s : Squ) : Nat :=
  match pa s with
  | some p => Z.zPiece p s
  | none => 0

/-- The piece-placement part of the from-scratch Zobrist hash: the XOR of
the per-square contributions over all 64 squares. -/
def placementHash (Z : ZTables) (pa : Squ → Option Piece) : Nat :=
  (List.finRange 64).foldr (fun s acc => pieceContrib Z pa s ^^^ acc) 0

/-- The from-scratch Zobrist hash of a board: XOR of the piece-placement
components, the side-to-move component, both castling-rights components and
the en-passant-file component. -/
def fromScratchHash (Z : ZTables) (b : BoardH) : Nat :=
  placementHash Z b.pieceAt ^^^ Z.zSide b.currentColor ^^^
    Z.zCastling b.currentCastling ^^^ Z.zCastling b.opposingCastling ^^^
    (match b.epData with
     | some d => Z.zEpFile d.pawn.file
     | none => 0)

/-- `Square::move_one_down_unchecked`: one rank towards the mover's own
side.  The Rust version assumes the result stays on the board (it is only
used on a double-push target); the wrap-around `% 64` here is never
exercised under that precondition. -/
def squMoveOneDown (c : Color) (s : Squ) : Squ :=
  match c with
  | .white => ⟨(s.val + 56) % 64, Nat.mod_lt _ (by omega)⟩
  | .black => ⟨(s.val + 8) % 64, Nat.mod_lt _ (by omega)⟩

/-- `Square::E1` / `Square::E8` by color: the king's home square. -/
def kingHome (c : Color) : Squ :=
  match c with
  | .white => sqE1
  | .black => sqE8

/-- The king's target square for a king-side castle (G1/G8). -/
def ksKingTarget (c : Color) : Squ :=
  match c with
  | .white => sqG1
  | .black => sqG8

/-- The king's target square for a queen-side castle (C1/C8). -/
def qsKingTarget (c : Color) : Squ :=
  match c with
  | .white => sqC1
  | .black => sqC8

/-- `Square::BOTTOM_RIGHT_ROOK` / `Square::TOP_RIGHT_ROOK` (H1/H8). -/
def rookKsHome (c : Color) : Squ :=
  match c with
  | .white => ⟨7, by decide⟩
  | .black => ⟨63, by decide⟩

/-- The rook's king-side castling destination (F1/F8). -/
def rookKsTarget (c : Color) : Squ :=
  match c with
  | .white => ⟨5, by decide⟩
  | .black => ⟨61, by decide⟩

/-- `Square::BOTTOM_LEFT_ROOK` / `Square::TOP_LEFT_ROOK` (A1/A8). -/
def rookQsHome (c : Color) : Squ :=
  match c with
  | .white => ⟨0, by decide⟩
  | .black => ⟨56, by decide⟩

/-- The rook's queen-side castling destination (D1/D8). -/
def rookQsTarget (c : Color) : Squ :=
  match c with
  | .white => ⟨3, by decide⟩
  | .black => ⟨59, by decide⟩

/-- `Board::move_piece_unchecked`: relocate `kind` from `origin` to
`target` for the player of color `cc`, XORing the moved piece out of the
origin and into the target and, when the target was occupied, XORing the
captured opposing piece out.  The piece table moves the entry at `origin`
(whose color becomes the mover's, per the occupation update); the `kind`
argument feeds the hash exactly as in the source. -/
def movePieceUnchecked (Z : ZTables) (cc : Color) (kind : PieceKind)
    (origin target : Squ) (pa : Squ → Option Piece) (hash : Nat) :
    (Squ → Option Piece) × Nat :=
  let capturedKind := (pa target).map Piece.kind
  let pa1 := Function.update
    (Function.update pa target ((pa origin).map fun p => ⟨p.kind, cc⟩)) origin none
  let hash1 := hash ^^^ Z.zPiece ⟨kind, cc⟩ origin ^^^ Z.zPiece ⟨kind, cc⟩ target
  let hash2 :=
    match capturedKind with
    | some ck => hash1 ^^^ Z.zPiece ⟨ck, cc.not⟩ target
    | none => hash1
  (pa1, hash2)

/-- The move-meta-specific effects of `make_move_unchecked` (the `match
chess_move.meta` block): promotion swaps the pawn for the promoted kind on
the target, en passant removes the opposing pawn at the stored square
(`past_ep_data.unwrap()` — `none` models the panic when there is no stored
en-passant data), a double push records new ep-data and folds the pushed
file into the hash, castling relocates the rook.  Returns the placement,
hash and new ep-data. -/
def applyMeta (Z : ZTables) (cc : Color) (m : ChessMove)
    (pastEp : Option EpData) (pa : Squ → Option Piece) (hash : Nat) :
    Option ((Squ → Option Piece) × Nat × Option EpData) :=
  match m.meta with
  | .none => some (pa, hash, none)
  | .promotion kind =>
      some (Function.update pa m.target (some ⟨kind, cc⟩),
        hash ^^^ Z.zPiece ⟨.pawn, cc⟩ m.target ^^^ Z.zPiece ⟨kind, cc⟩ m.target,
        none)
  | .enPassant =>
      match pastEp with
      | none => none
      | some d =>
          some (Function.update pa d.pawn none,
            hash ^^^ Z.zPiece ⟨.pawn, cc.not⟩ d.pawn, none)
  | .doublePush =>
      some (pa, hash ^^^ Z.zEpFile m.origin.file,
        some ⟨squareBB (squMoveOneDown cc m.target), m.target⟩)
  | .castleKs =>
      let r := movePieceUnchecked Z cc .rook (rookKsHome cc) (rookKsTarget cc) pa hash
      some (r.1, r.2, none)
  | .castleQs =>
      let r := movePieceUnchecked Z cc .rook (rookQsHome cc) (rookQsTarget cc) pa hash
      some (r.1, r.2, none)

/-- `Board::make_move_unchecked`: clear the stale en-passant hash
component, re-key the castling-rights components around revoking the rights
touched by the move's origin and target, relocate the moved piece, apply
the move-meta effects, toggle the side-to-move component, flip the color
and swap the player slots.  Returns the new board and whether the move was
a pawn move or a capture. -/
def makeMoveUnchecked (Z : ZTables) (b : BoardH) (m : ChessMove) :
    Option (BoardH × Bool) :=
  let cc := b.currentColor
  let hash1 := b.hash ^^^
    (match b.epData with
     | some d => Z.zEpFile d.pawn.file
     | none => 0)
  let curCast := Function.update b.currentCastling m.origin false
  let oppCast := Function.update b.opposingCastling m.target false
  let hash2 := hash1 ^^^ Z.zCastling b.currentCastling ^^^
    Z.zCastling b.opposingCastling ^^^ Z.zCastling curCast ^^^ Z.zCastling oppCast
  let isCapture := (b.pieceAt m.target).isSome
  let isPawnMove := decide (m.movedPieceKind = PieceKind.pawn)
  let mp := movePieceUnchecked Z cc m.movedPieceKind m.origin m.target b.pieceAt hash2
  match applyMeta Z cc m b.epData mp.1 mp.2 with
  | none => none
  | some r =>
      some (⟨r.1, cc.not, oppCast, curCast, r.2.2,
        r.2.1 ^^^ Z.zSide cc ^^^ Z.zSide cc.not⟩,
        isPawnMove || isCapture)

/-- The legality facts about a move that `make_move_unchecked` relies on
(its caller-enforced precondition), restricted to what the hash invariant
needs: the moved piece sits on the origin with the mover's color, origin
and target differ, any piece on the target is an enemy piece, a promotion
moves a pawn, en passant has stored ep-data whose pawn is an enemy pawn on
a third square, a double push keeps its file, and castling happens on the
home squares with the rook in place and its destination empty. -/
structure LegalForHash (b : BoardH) (m : ChessMove) : Prop where
  origin_piece : b.pieceAt m.origin = some ⟨m.movedPieceKind, b.currentColor⟩
  origin_ne_target : m.origin ≠ m.target
  target_enemy : ∀ p, b.pieceAt m.target = some p → p.color = b.currentColor.not
  promo_pawn : ∀ k, m.meta = .promotion k → m.movedPieceKind = .pawn
  ep_ok : m.meta = .enPassant → ∃ d, b.epData = some d ∧
    b.pieceAt d.pawn = some ⟨.pawn, b.currentColor.not⟩ ∧
    d.pawn ≠ m.origin ∧ d.pawn ≠ m.target
  dp_file : m.meta = .doublePush → Squ.file m.target = Squ.file m.origin
  ks_ok : m.meta = .castleKs → m.origin = kingHome b.currentColor ∧
    m.target = ksKingTarget b.currentColor ∧
    b.pieceAt (rookKsHome b.currentColor) = some ⟨.rook, b.currentColor⟩ ∧
    b.pieceAt (rookKsTarget b.currentColor) = none
  qs_ok : m.meta = .castleQs → m.origin = kingHome b.currentColor ∧
    m.target = qsKingTarget b.currentColor ∧
    b.pieceAt (rookQsHome b.currentColor) = some ⟨.rook, b.currentColor⟩ ∧
    b.pieceAt (rookQsTarget b.currentColor) = none

/-! ### XOR-fold bookkeeping for the placement hash -/

theorem xor_left_comm (a b c : Nat) : a ^^^ (b ^^^ c) = b ^^^ (a ^^^ c) := by
  rw [← Nat.xor_assoc, Nat.xor_comm a b, Nat.xor_assoc]

theorem foldr_xor_congr (l : List Squ) (f g : Squ → Nat)
    (h : ∀ t ∈ l, f t = g t) :
    l.foldr (fun t acc => f t ^^^ acc) 0 = l.foldr (fun t acc => g t ^^^ acc) 0 := by
  induction l with
  | nil => rfl
  | cons a l ih =>
    simp only [List.foldr_cons]
    rw [h a (by simp), ih (fun t ht => h t (by simp [ht]))]

/-- Changing a function at a single point of a duplicate-free index list
changes its XOR-fold by the XOR of the old and new contributions there. -/
theorem foldr_xor_point (l : List Squ) (f g : Squ → Nat) (s : Squ)
    (hnd : l.Nodup) (hs : s ∈ l) (hagree : ∀ t ∈ l, t ≠ s → f t = g t) :
    l.foldr (fun t acc => f t ^^^ acc) 0 =
      (l.foldr (fun t acc => g t ^^^ acc) 0) ^^^ g s ^^^ f s := by
  induction l with
  | nil => cases hs
  | cons a l ih =>
    have hnd' : l.Nodup := (List.nodup_cons.mp hnd).2
    have hna : a ∉ l := (List.nodup_cons.mp hnd).1
    simp only [List.foldr_cons]
    rcases List.mem_cons.mp hs with rfl | hsl
    · have hfold : l.foldr (fun t acc => f t ^^^ acc) 0 =
          l.foldr (fun t acc => g t ^^^ acc) 0 :=
        foldr_xor_congr l f g (fun t ht => hagree t (by simp [ht])
          (fun hts => hna (hts ▸ ht)))
      rw [hfold]
      simp only [Nat.xor_assoc, Nat.xor_cancel_left, xor_left_comm]
      exact Nat.xor_comm _ _
    · have hasne : a ≠ s := fun h => hna (h ▸ hsl)
      rw [hagree a (by simp) hasne, ih hnd' hsl
        (fun t ht hts => hagree t (by simp [ht]) hts)]
      simp only [Nat.xor_assoc]

/-- Updating the placement at one square re-keys the placement hash by the
old and new contributions of that square. -/
theorem placementHash_update (Z : ZTables) (pa : Squ → Option Piece)
    (s : Squ) (v : Option Piece) :
    placementHash Z (Function.update pa s v) =
      placementHash Z pa ^^^ pieceContrib Z pa s ^^^
        (match v with
         | some p => Z.zPiece p s
         | none => 0) := by
  unfold placementHash
  have := foldr_xor_point (List.finRange 64)
    (pieceContrib Z (Function.update pa s v)) (pieceContrib Z pa) s
    (List.nodup_finRange 64) (List.mem_finRange s)
    (fun t _ hts => by
      unfold pieceContrib
      rw [Function.update_noteq hts])
  rw [this]
  congr 1
  unfold pieceContrib
  rw [Function.update_same]


/-! ### How `move_piece_unchecked` transforms the hash and the placement -/

theorem movePiece_hash (Z : ZTables) (cc : Color) (kind : PieceKind)
    (o t : Squ) (pa : Squ → Option Piece) (h : Nat)
    (henemy : ∀ p, pa t = some p → p.color = cc.not) :
    (movePieceUnchecked Z cc kind o t pa h).2 =
      h ^^^ Z.zPiece ⟨kind, cc⟩ o ^^^ Z.zPiece ⟨kind, cc⟩ t ^^^
        pieceContrib Z pa t := by
  unfold movePieceUnchecked pieceContrib
  cases hct : pa t with
  | none => simp
  | some p =>
    have hcol := henemy p hct
    cases p with
    | mk k col =>
      dsimp only at hcol
      subst hcol
      simp

theorem movePiece_apply_other (Z : ZTables) (cc : Color) (kind : PieceKind)
    (o t : Squ) (pa : Squ → Option Piece) (h : Nat) (x : Squ)
    (hxo : x ≠ o) (hxt : x ≠ t) :
    (movePieceUnchecked Z cc kind o t pa h).1 x = pa x := by
  unfold movePieceUnchecked
  dsimp only
  rw [Function.update_noteq hxo, Function.update_noteq hxt]

theorem movePiece_apply_target (Z : ZTables) (cc : Color) (kind : PieceKind)
    (o t : Squ) (pa : Squ → Option Piece) (h : Nat)
    (hne : o ≠ t) (hop : pa o = some ⟨kind, cc⟩) :
    (movePieceUnchecked Z cc kind o t pa h).1 t = some ⟨kind, cc⟩ := by
  unfold movePieceUnchecked
  dsimp only
  rw [Function.update_noteq (Ne.symm hne), Function.update_same, hop]
  rfl

theorem movePiece_placement (Z : ZTables) (cc : Color) (kind : PieceKind)
    (o t : Squ) (pa : Squ → Option Piece) (h : Nat)
    (hne : o ≠ t) (hop : pa o = some ⟨kind, cc⟩) :
    placementHash Z (movePieceUnchecked Z cc kind o t pa h).1 =
      placementHash Z pa ^^^ pieceContrib Z pa t ^^^
        Z.zPiece ⟨kind, cc⟩ t ^^^ pieceContrib Z pa o := by
  unfold movePieceUnchecked
  dsimp only
  rw [placementHash_update, placementHash_update]
  rw [show pieceContrib Z (Function.update pa t ((pa o).map fun p => ⟨p.kind, cc⟩)) o
      = pieceContrib Z pa o from by
    unfold pieceContrib
    rw [Function.update_noteq hne]]
  rw [hop]
  simp only [Option.map_some']
  simp only [Nat.xor_assoc, Nat.xor_zero]

/-! ### The shape of `make_move_unchecked` and its meta cases -/

theorem makeMove_unfold (Z : ZTables) (b : BoardH) (m : ChessMove) :
    makeMoveUnchecked Z b m =
      (match applyMeta Z b.currentColor m b.epData
        (movePieceUnchecked Z b.currentColor m.movedPieceKind m.origin m.target
          b.pieceAt
          (b.hash ^^^
            (match b.epData with
             | some d => Z.zEpFile d.pawn.file
             | none => 0) ^^^
            Z.zCastling b.currentCastling ^^^ Z.zCastling b.opposingCastling ^^^
            Z.zCastling (Function.update b.currentCastling m.origin false) ^^^
            Z.zCastling (Function.update b.opposingCastling m.target false))).1
        (movePieceUnchecked Z b.currentColor m.movedPieceKind m.origin m.target
          b.pieceAt
          (b.hash ^^^
            (match b.epData with
             | some d => Z.zEpFile d.pawn.file
             | none => 0) ^^^
            Z.zCastling b.currentCastling ^^^ Z.zCastling b.opposingCastling ^^^
            Z.zCastling (Function.update b.currentCastling m.origin false) ^^^
            Z.zCastling (Function.update b.opposingCastling m.target false))).2 with
      | none => none
      | some r =>
          some (⟨r.1, b.currentColor.not,
            Function.update b.opposingCastling m.target false,
            Function.update b.currentCastling m.origin false, r.2.2,
            r.2.1 ^^^ Z.zSide b.currentColor ^^^ Z.zSide b.currentColor.not⟩,
            decide (m.movedPieceKind = PieceKind.pawn) ||
              (b.pieceAt m.target).isSome)) := by
  rfl

theorem applyMeta_none (Z : ZTables) (cc : Color) (m : ChessMove)
    (ep : Option EpData) (pa : Squ → Option Piece) (h : Nat)
    (hm : m.meta = .none) :
    applyMeta Z cc m ep pa h = some (pa, h, Option.none) := by
  unfold applyMeta
  rw [hm]

theorem applyMeta_promotion (Z : ZTables) (cc : Color) (m : ChessMove)
    (ep : Option EpData) (pa : Squ → Option Piece) (h : Nat) (k : PieceKind)
    (hm : m.meta = .promotion k) :
    applyMeta Z cc m ep pa h =
      some (Function.update pa m.target (some ⟨k, cc⟩),
        h ^^^ Z.zPiece ⟨.pawn, cc⟩ m.target ^^^ Z.zPiece ⟨k, cc⟩ m.target,
        Option.none) := by
  unfold applyMeta
  rw [hm]

theorem applyMeta_enPassant (Z : ZTables) (cc : Color) (m : ChessMove)
    (d : EpData) (pa : Squ → Option Piece) (h : Nat)
    (hm : m.meta = .enPassant) :
    applyMeta Z cc m (some d) pa h =
      some (Function.update pa d.pawn Option.none,
        h ^^^ Z.zPiece ⟨.pawn, cc.not⟩ d.pawn, Option.none) := by
  unfold applyMeta
  rw [hm]

theorem applyMeta_doublePush (Z : ZTables) (cc : Color) (m : ChessMove)
    (ep : Option EpData) (pa : Squ → Option Piece) (h : Nat)
    (hm : m.meta = .doublePush) :
    applyMeta Z cc m ep pa h =
      some (pa, h ^^^ Z.zEpFile m.origin.file,
        some ⟨squareBB (squMoveOneDown cc m.target), m.target⟩) := by
  unfold applyMeta
  rw [hm]

theorem applyMeta_castleKs (Z : ZTables) (cc : Color) (m : ChessMove)
    (ep : Option EpData) (pa : Squ → Option Piece) (h : Nat)
    (hm : m.meta = .castleKs) :
    applyMeta Z cc m ep pa h =
      some ((movePieceUnchecked Z cc .rook (rookKsHome cc) (rookKsTarget cc) pa h).1,
        (movePieceUnchecked Z cc .rook (rookKsHome cc) (rookKsTarget cc) pa h).2,
        Option.none) := by
  unfold applyMeta
  rw [hm]

theorem applyMeta_castleQs (Z : ZTables) (cc : Color) (m : ChessMove)
    (ep : Option EpData) (pa : Squ → Option Piece) (h : Nat)
    (hm : m.meta = .castleQs) :
    applyMeta Z cc m ep pa h =
      some ((movePieceUnchecked Z cc .rook (rookQsHome cc) (rookQsTarget cc) pa h).1,
        (movePieceUnchecked Z cc .rook (rookQsHome cc) (rookQsTarget cc) pa h).2,
        Option.none) := by
  unfold applyMeta
  rw [hm]


/-- `make_move_unchecked` after the en-passant and castling-rights hash
re-keying: the argument `h2` is the hash at the point the piece is moved.
Splitting here lets the hash bookkeeping be proved against an arbitrary
intermediate hash value. -/
def makeMoveFrom (Z : ZTables) (b : BoardH) (m : ChessMove) (h2 : Nat) :
    Option (BoardH × Bool) :=
  let mp := movePieceUnchecked Z b.currentColor m.movedPieceKind m.origin m.target
    b.pieceAt h2
  match applyMeta Z b.currentColor m b.epData mp.1 mp.2 with
  | none => none
  | some r =>
      some (⟨r.1, b.currentColor.not,
        Function.update b.opposingCastling m.target false,
        Function.update b.currentCastling m.origin false, r.2.2,
        r.2.1 ^^^ Z.zSide b.currentColor ^^^ Z.zSide b.currentColor.not⟩,
        decide (m.movedPieceKind = PieceKind.pawn) || (b.pieceAt m.target).isSome)

theorem makeMove_eq_from (Z : ZTables) (b : BoardH) (m : ChessMove) :
    makeMoveUnchecked Z b m = makeMoveFrom Z b m
      (b.hash ^^^
        (match b.epData with
         | some d => Z.zEpFile d.pawn.file
         | none => 0) ^^^
        Z.zCastling b.currentCastling ^^^ Z.zCastling b.opposingCastling ^^^
        Z.zCastling (Function.update b.currentCastling m.origin false) ^^^
        Z.zCastling (Function.update b.opposingCastling m.target false)) := by
  rfl

/-- The hash bookkeeping of `make_move_unchecked` downstream of the
castling-rights re-keying: if the intermediate hash `H2` carries the
from-scratch hash of the old board XORed with the stale en-passant
component and the castling components of both the old and the revoked
rights, then the final board's hash is again its from-scratch hash. -/
theorem makeMoveFrom_zobrist (Z : ZTables) (b : BoardH) (m : ChessMove)
    (hleg : LegalForHash b m) (H2 : Nat)
    (hH2 : H2 = fromScratchHash Z b ^^^
      (match b.epData with
       | some d => Z.zEpFile d.pawn.file
       | none => 0) ^^^
      Z.zCastling b.currentCastling ^^^ Z.zCastling b.opposingCastling ^^^
      Z.zCastling (Function.update b.currentCastling m.origin false) ^^^
      Z.zCastling (Function.update b.opposingCastling m.target false)) :
    ∃ br : BoardH × Bool, makeMoveFrom Z b m H2 = some br ∧
      br.1.hash = fromScratchHash Z br.1 := by
  have hP1 := hleg.origin_piece
  have hne := hleg.origin_ne_target
  have hco : pieceContrib Z b.pieceAt m.origin =
      Z.zPiece ⟨m.movedPieceKind, b.currentColor⟩ m.origin := by
    unfold pieceContrib
    rw [hP1]
  unfold makeMoveFrom
  dsimp only
  cases hmeta : m.meta with
  | none =>
    rw [applyMeta_none Z b.currentColor m b.epData _ _ hmeta]
    refine ⟨_, rfl, ?_⟩
    dsimp only
    unfold fromScratchHash
    dsimp only
    rw [movePiece_hash Z b.currentColor m.movedPieceKind m.origin m.target
        b.pieceAt H2 hleg.target_enemy,
      movePiece_placement Z b.currentColor m.movedPieceKind m.origin m.target
        b.pieceAt H2 hne hP1,
      hco, hH2]
    unfold fromScratchHash
    simp only [Nat.xor_assoc, Nat.xor_comm, xor_left_comm, Nat.xor_self,
      Nat.xor_zero, Nat.zero_xor, Nat.xor_cancel_left]
  | promotion k =>
    have hkind := hleg.promo_pawn k hmeta
    rw [applyMeta_promotion Z b.currentColor m b.epData _ _ k hmeta]
    refine ⟨_, rfl, ?_⟩
    dsimp only
    unfold fromScratchHash
    dsimp only
    rw [placementHash_update]
    rw [show pieceContrib Z (movePieceUnchecked Z b.currentColor m.movedPieceKind
        m.origin m.target b.pieceAt H2).1 m.target =
        Z.zPiece ⟨m.movedPieceKind, b.currentColor⟩ m.target from by
      unfold pieceContrib
      rw [movePiece_apply_target Z b.currentColor m.movedPieceKind m.origin
        m.target b.pieceAt H2 hne hP1]]
    rw [movePiece_hash Z b.currentColor m.movedPieceKind m.origin m.target
        b.pieceAt H2 hleg.target_enemy,
      movePiece_placement Z b.currentColor m.movedPieceKind m.origin m.target
        b.pieceAt H2 hne hP1,
      hco, hkind, hH2]
    unfold fromScratchHash
    dsimp only
    simp only [Nat.xor_assoc, Nat.xor_comm, xor_left_comm, Nat.xor_self,
      Nat.xor_zero, Nat.zero_xor, Nat.xor_cancel_left]
  | enPassant =>
    obtain ⟨d, hepd, hpd, hdo, hdt⟩ := hleg.ep_ok hmeta
    rw [hepd]
    rw [applyMeta_enPassant Z b.currentColor m d _ _ hmeta]
    refine ⟨_, rfl, ?_⟩
    dsimp only
    unfold fromScratchHash
    dsimp only
    rw [placementHash_update]
    rw [show pieceContrib Z (movePieceUnchecked Z b.currentColor m.movedPieceKind
        m.origin m.target b.pieceAt H2).1 d.pawn =
        Z.zPiece ⟨.pawn, b.currentColor.not⟩ d.pawn from by
      unfold pieceContrib
      rw [movePiece_apply_other Z b.currentColor m.movedPieceKind m.origin
        m.target b.pieceAt H2 d.pawn hdo hdt, hpd]]
    rw [movePiece_hash Z b.currentColor m.movedPieceKind m.origin m.target
        b.pieceAt H2 hleg.target_enemy,
      movePiece_placement Z b.currentColor m.movedPieceKind m.origin m.target
        b.pieceAt H2 hne hP1,
      hco, hH2]
    unfold fromScratchHash
    rw [hepd]
    dsimp only
    simp only [Nat.xor_assoc, Nat.xor_comm, xor_left_comm, Nat.xor_self,
      Nat.xor_zero, Nat.zero_xor, Nat.xor_cancel_left]
  | doublePush =>
    have hfile := hleg.dp_file hmeta
    rw [applyMeta_doublePush Z b.currentColor m b.epData _ _ hmeta]
    refine ⟨_, rfl, ?_⟩
    dsimp only
    unfold fromScratchHash
    dsimp only
    rw [hfile]
    rw [movePiece_hash Z b.currentColor m.movedPieceKind m.origin m.target
        b.pieceAt H2 hleg.target_enemy,
      movePiece_placement Z b.currentColor m.movedPieceKind m.origin m.target
        b.pieceAt H2 hne hP1,
      hco, hH2]
    unfold fromScratchHash
    simp only [Nat.xor_assoc, Nat.xor_comm, xor_left_comm, Nat.xor_self,
      Nat.xor_zero, Nat.zero_xor, Nat.xor_cancel_left]
  | castleKs =>
    obtain ⟨ho, ht, hrook, hrtE⟩ := hleg.ks_ok hmeta
    have hd1 : rookKsHome b.currentColor ≠ m.origin := by
      rw [ho]; cases b.currentColor <;> decide
    have hd2 : rookKsHome b.currentColor ≠ m.target := by
      rw [ht]; cases b.currentColor <;> decide
    have hd3 : rookKsTarget b.currentColor ≠ m.origin := by
      rw [ho]; cases b.currentColor <;> decide
    have hd4 : rookKsTarget b.currentColor ≠ m.target := by
      rw [ht]; cases b.currentColor <;> decide
    have hd5 : rookKsHome b.currentColor ≠ rookKsTarget b.currentColor := by
      cases b.currentColor <;> decide
    have hpa1rh : (movePieceUnchecked Z b.currentColor m.movedPieceKind m.origin
        m.target b.pieceAt H2).1 (rookKsHome b.currentColor) =
        some ⟨.rook, b.currentColor⟩ := by
      rw [movePiece_apply_other Z b.currentColor m.movedPieceKind m.origin
        m.target b.pieceAt H2 (rookKsHome b.currentColor) hd1 hd2, hrook]
    have hpa1rt : (movePieceUnchecked Z b.currentColor m.movedPieceKind m.origin
        m.target b.pieceAt H2).1 (rookKsTarget b.currentColor) = none := by
      rw [movePiece_apply_other Z b.currentColor m.movedPieceKind m.origin
        m.target b.pieceAt H2 (rookKsTarget b.currentColor) hd3 hd4, hrtE]
    have hcontrt : pieceContrib Z (movePieceUnchecked Z b.currentColor
        m.movedPieceKind m.origin m.target b.pieceAt H2).1
        (rookKsTarget b.currentColor) = 0 := by
      unfold pieceContrib
      rw [hpa1rt]
    have hcontrh : pieceContrib Z (movePieceUnchecked Z b.currentColor
        m.movedPieceKind m.origin m.target b.pieceAt H2).1
        (rookKsHome b.currentColor) =
        Z.zPiece ⟨.rook, b.currentColor⟩ (rookKsHome b.currentColor) := by
      unfold pieceContrib
      rw [hpa1rh]
    rw [applyMeta_castleKs Z b.currentColor m b.epData _ _ hmeta]
    refine ⟨_, rfl, ?_⟩
    dsimp only
    unfold fromScratchHash
    dsimp only
    rw [movePiece_hash Z b.currentColor .rook (rookKsHome b.currentColor)
        (rookKsTarget b.currentColor) _ _
        (fun p hp => absurd (hpa1rt ▸ hp) (by simp)),
      movePiece_placement Z b.currentColor .rook (rookKsHome b.currentColor)
        (rookKsTarget b.currentColor) _ _ hd5 hpa1rh,
      hcontrt, hcontrh,
      movePiece_hash Z b.currentColor m.movedPieceKind m.origin m.target
        b.pieceAt H2 hleg.target_enemy,
      movePiece_placement Z b.currentColor m.movedPieceKind m.origin m.target
        b.pieceAt H2 hne hP1,
      hco, hH2]
    unfold fromScratchHash
    simp only [Nat.xor_assoc, Nat.xor_comm, xor_left_comm, Nat.xor_self,
      Nat.xor_zero, Nat.zero_xor, Nat.xor_cancel_left]
  | castleQs =>
    obtain ⟨ho, ht, hrook, hrtE⟩ := hleg.qs_ok hmeta
    have hd1 : rookQsHome b.currentColor ≠ m.origin := by
      rw [ho]; cases b.currentColor <;> decide
    have hd2 : rookQsHome b.currentColor ≠ m.target := by
      rw [ht]; cases b.currentColor <;> decide
    have hd3 : rookQsTarget b.currentColor ≠ m.origin := by
      rw [ho]; cases b.currentColor <;> decide
    have hd4 : rookQsTarget b.currentColor ≠ m.target := by
      rw [ht]; cases b.currentColor <;> decide
    have hd5 : rookQsHome b.currentColor ≠ rookQsTarget b.currentColor := by
      cases b.currentColor <;> decide
    have hpa1rh : (movePieceUnchecked Z b.currentColor m.movedPieceKind m.origin
        m.target b.pieceAt H2).1 (rookQsHome b.currentColor) =
        some ⟨.rook, b.currentColor⟩ := by
      rw [movePiece_apply_other Z b.currentColor m.movedPieceKind m.origin
        m.target b.pieceAt H2 (rookQsHome b.currentColor) hd1 hd2, hrook]
    have hpa1rt : (movePieceUnchecked Z b.currentColor m.movedPieceKind m.origin
        m.target b.pieceAt H2).1 (rookQsTarget b.currentColor) = none := by
      rw [movePiece_apply_other Z b.currentColor m.movedPieceKind m.origin
        m.target b.pieceAt H2 (rookQsTarget b.currentColor) hd3 hd4, hrtE]
    have hcontrt : pieceContrib Z (movePieceUnchecked Z b.currentColor
        m.movedPieceKind m.origin m.target b.pieceAt H2).1
        (rookQsTarget b.currentColor) = 0 := by
      unfold pieceContrib
      rw [hpa1rt]
    have hcontrh : pieceContrib Z (movePieceUnchecked Z b.currentColor
        m.movedPieceKind m.origin m.target b.pieceAt H2).1
        (rookQsHome b.currentColor) =
        Z.zPiece ⟨.rook, b.currentColor⟩ (rookQsHome b.currentColor) := by
      unfold pieceContrib
      rw [hpa1rh]
    rw [applyMeta_castleQs Z b.currentColor m b.epData _ _ hmeta]
    refine ⟨_, rfl, ?_⟩
    dsimp only
    unfold fromScratchHash
    dsimp only
    rw [movePiece_hash Z b.currentColor .rook (rookQsHome b.currentColor)
        (rookQsTarget b.currentColor) _ _
        (fun p hp => absurd (hpa1rt ▸ hp) (by simp)),
      movePiece_placement Z b.currentColor .rook (rookQsHome b.currentColor)
        (rookQsTarget b.currentColor) _ _ hd5 hpa1rh,
      hcontrt, hcontrh,
      movePiece_hash Z b.currentColor m.movedPieceKind m.origin m.target
        b.pieceAt H2 hleg.target_enemy,
      movePiece_placement Z b.currentColor m.movedPieceKind m.origin m.target
        b.pieceAt H2 hne hP1,
      hco, hH2]
    unfold fromScratchHash
    simp only [Nat.xor_assoc, Nat.xor_comm, xor_left_comm, Nat.xor_self,
      Nat.xor_zero, Nat.zero_xor, Nat.xor_cancel_left]


/-! ## Claim C1 -/

/-- C1: for every choice of Zobrist component tables, every board whose
`hash` equals the from-scratch Zobrist hash of its (piece placement, side
to move, castling rights, en-passant file) and every legal move — of every
move-meta kind and whether or not it captures — `make_move_unchecked`
succeeds and the updated `hash`, maintained purely by XOR of per-feature
components, again equals the from-scratch Zobrist hash of the resulting
position.  (Universality over the component tables is what pins the update
to component XORs: no recomputation against specific tables could satisfy
every choice.) -/
theorem make_move_preserves_zobrist (Z : ZTables) (b : BoardH) (m : ChessMove)
    (hleg : LegalForHash b m) (hinv : b.hash = fromScratchHash Z b) :
    ∃ br : BoardH × Bool, makeMoveUnchecked Z b m = some br ∧
      br.1.hash = fromScratchHash Z br.1 := by
  rw [makeMove_eq_from]
  exact makeMoveFrom_zobrist Z b m hleg _ (by rw [hinv])

/-- Concrete Zobrist tables for the witnesses. -/
def demoZ : ZTables where
  zPiece := fun _ s => s.val + 1
  zSide := fun c => match c with | .white => 5 | .black => 6
  zCastling := fun f => if f ⟨0, by decide⟩ then 1 else 2
  zEpFile := fun f => f + 64

/-- A board with a single White pawn on E2 and a correct hash. -/
def demoBoard : BoardH where
  pieceAt := fun s => if s.val = 12 then some ⟨.pawn, .white⟩ else none
  currentColor := .white
  currentCastling := fun _ => false
  opposingCastling := fun _ => false
  epData := none
  hash := 8

/-- The double push E2-E4. -/
def demoMove : ChessMove :=
  ⟨⟨12, by decide⟩, ⟨28, by decide⟩, .pawn, .doublePush⟩

theorem demo_legal : LegalForHash demoBoard demoMove where
  origin_piece := by decide
  origin_ne_target := by decide
  target_enemy := fun p hp => nomatch hp
  promo_pawn := fun k h => nomatch h
  ep_ok := fun h => nomatch h
  dp_file := fun _ => rfl
  ks_ok := fun h => nomatch h
  qs_ok := fun h => nomatch h

/-- Witness for C1: the hash invariant is preserved across the double push
E2-E4 on the concrete board and tables above. -/
theorem make_move_preserves_zobrist_witness :
    ∃ br : BoardH × Bool, makeMoveUnchecked demoZ demoBoard demoMove = some br ∧
      br.1.hash = fromScratchHash demoZ br.1 :=
  make_move_preserves_zobrist demoZ demoBoard demoMove demo_legal (by decide)

/-! ## Claim C8 -/

/-- C8: `make_move_unchecked` reports exactly the irreversible moves: it
returns `true` precisely when the move moves a pawn (double pushes,
en passant and promotions included) or captures a piece — where a capture
is a move onto an occupied target square or an en-passant capture — and
`false` for every non-pawn, non-capturing move.  (The hypothesis is part of
the function's legality precondition: an en-passant move has stored ep-data
and moves a pawn.) -/
theorem make_move_irreversible_flag (Z : ZTables) (b : BoardH) (m : ChessMove)
    (hep : m.meta = .enPassant → b.epData.isSome = true ∧ m.movedPieceKind = .pawn) :
    ∃ br : BoardH × Bool, makeMoveUnchecked Z b m = some br ∧
      (br.2 = true ↔ (m.movedPieceKind = .pawn ∨
        ((b.pieceAt m.target).isSome = true ∨ m.meta = .enPassant))) := by
  rw [makeMove_eq_from]
  unfold makeMoveFrom
  dsimp only
  cases hmeta : m.meta with
  | none =>
    rw [applyMeta_none Z b.currentColor m b.epData _ _ hmeta]
    refine ⟨_, rfl, ?_⟩
    simp [hmeta]
  | promotion k =>
    rw [applyMeta_promotion Z b.currentColor m b.epData _ _ k hmeta]
    refine ⟨_, rfl, ?_⟩
    simp [hmeta]
  | enPassant =>
    obtain ⟨hsome, hpk⟩ := hep hmeta
    obtain ⟨d, hd⟩ := Option.isSome_iff_exists.mp hsome
    rw [hd, applyMeta_enPassant Z b.currentColor m d _ _ hmeta]
    refine ⟨_, rfl, ?_⟩
    simp [hmeta, hpk]
  | doublePush =>
    rw [applyMeta_doublePush Z b.currentColor m b.epData _ _ hmeta]
    refine ⟨_, rfl, ?_⟩
    simp [hmeta]
  | castleKs =>
    rw [applyMeta_castleKs Z b.currentColor m b.epData _ _ hmeta]
    refine ⟨_, rfl, ?_⟩
    simp [hmeta]
  | castleQs =>
    rw [applyMeta_castleQs Z b.currentColor m b.epData _ _ hmeta]
    refine ⟨_, rfl, ?_⟩
    simp [hmeta]

/-- Witness for C8 at the concrete double push E2-E4: the returned flag is
`true` and the move is a pawn move. -/
theorem make_move_irreversible_flag_witness :
    ∃ br : BoardH × Bool, makeMoveUnchecked demoZ demoBoard demoMove = some br ∧
      (br.2 = true ↔ (demoMove.movedPieceKind = .pawn ∨
        ((demoBoard.pieceAt demoMove.target).isSome = true ∨
          demoMove.meta = .enPassant))) :=
  make_move_irreversible_flag demoZ demoBoard demoMove (fun h => nomatch h)


/-! ## The legality-constraint engine
(`hash-core/src/board.rs::update_move_constraints`, claim C2)

The constraint pass works on the per-side piece bitboards of `Player`
(`repr.rs`, external): only the fields it reads and writes are modelled.
The ray/knight attack lookups live in the external compile-time attack
tables; per spec section 6 they are a pure oracle returning, for a square
and a blocker set, the per-direction slide rays pre-clipped at the first
blocker (inclusive), and the knight attack set of a square.
-/

/-- The four directional pin masks of `Pins`. -/
structure Pins where
  vertical : Nat
  diagonal : Nat
  horizontal : Nat
  antiDiagonal : Nat
deriving DecidableEq, Repr

/-- `Pins::EMPTY`. -/
def Pins.EMPTY : Pins := ⟨0, 0, 0, 0⟩

inductive PinAxis where
  | vertical
  | diagonal
  | horizontal
  | antiDiagonal

/-- `pin_mask += ray` on the chosen axis (`+` on bitboards is set union). -/
def Pins.add (p : Pins) (a : PinAxis) (ray : Nat) : Pins :=
  match a with
  | .vertical => { p with vertical := p.vertical ||| ray }
  | .diagonal => { p with diagonal := p.diagonal ||| ray }
  | .horizontal => { p with horizontal := p.horizontal ||| ray }
  | .antiDiagonal => { p with antiDiagonal := p.antiDiagonal ||| ray }

/-- The fields of `Player` read and written by the constraint pass. -/
structure PlayerC where
  pawns : Nat
  knights : Nat
  bishops : Nat
  rooks : Nat
  queens : Nat
  king : Nat
  occupation : Nat
  pins : Pins
  validTargets : Nat
  kingMustMove : Bool
deriving DecidableEq, Repr

structure BoardC where
  currentPlayer : PlayerC
  opposingPlayer : PlayerC
  currentColor : Color
deriving DecidableEq, Repr

/-- `BitBoard::first_one_as_square` on a nonempty board (the king board):
the lowest set bit's square. -/
def firstOneSquare (b : Nat) : Squ :=
  ((List.finRange 64).find? (fun s => b.testBit s.val)).getD ⟨0, by decide⟩

/-- Modelled from the spec: the squares reached from `s` stepping repeatedly
by `(df, dr)` files/ranks, nearest first, stopping at the board edge — the
unclipped ray of the external attack-table oracle. -/
def rayFrom (s : Squ) (df dr : Int) : List Squ :=
  (List.range 7).filterMap (fun i =>
    let f : Int := (s.val % 8 : Nat) + df * (i + 1)
    let r : Int := (s.val / 8 : Nat) + dr * (i + 1)
    if h : 0 ≤ f ∧ f < 8 ∧ 0 ≤ r ∧ r < 8 then
      some ⟨(f + 8 * r).toNat, by omega⟩
    else none)

/-- Modelled from the spec: clip a ray at the first blocker, keeping the
blocker's square (rays "pre-clipped by occupied-square blockers", stopping
when they find the blocking piece). -/
def clipRay (l : List Squ) (blockers : Nat) : Nat :=
  match l with
  | [] => 0
  | sq :: rest =>
      squareBB sq ||| (if blockers.testBit sq.val then 0 else clipRay rest blockers)

/-- Modelled from the spec: `index::separated_rook_slides` — the four
orthogonal rays (up, right, down, left) from a square, clipped by the given
blockers. -/
def separatedRookSlides (s : Squ) (blockers : Nat) : Nat × Nat × Nat × Nat :=
  (clipRay (rayFrom s 0 1) blockers,
   clipRay (rayFrom s 1 0) blockers,
   clipRay (rayFrom s 0 (-1)) blockers,
   clipRay (rayFrom s (-1) 0) blockers)

/-- Modelled from the spec: `index::separated_bishop_slides` — the four
diagonal rays (up-left, up-right, down-right, down-left) from a square,
clipped by the given blockers. -/
def separatedBishopSlides (s : Squ) (blockers : Nat) : Nat × Nat × Nat × Nat :=
  (clipRay (rayFrom s (-1) 1) blockers,
   clipRay (rayFrom s 1 1) blockers,
   clipRay (rayFrom s 1 (-1)) blockers,
   clipRay (rayFrom s (-1) (-1)) blockers)

/-- Modelled from the spec: `index::knight_attacks` — the knight-move
squares of a square. -/
def knightAttacks (s : Squ) : Nat :=
  ([(1, 2), (2, 1), (2, -1), (1, -2), (-1, -2), (-2, -1), (-2, 1), (-1, 2)] :
      List (Int × Int)).foldr
    (fun d acc =>
      let f : Int := (s.val % 8 : Nat) + d.1
      let r : Int := (s.val / 8 : Nat) + d.2
      if h : 0 ≤ f ∧ f < 8 ∧ 0 ≤ r ∧ r < 8 then
        acc ||| squareBB ⟨(f + 8 * r).toNat, by omega⟩
      else acc) 0

/-- One `update!` step of `update_slide_constraints`: if the ray reaches a
matching enemy slider, one friendly blocker pins along the axis, zero
blockers restricts `valid_targets` to the ray — unless already restricted,
which declares double check, sets `king_must_move` and short-circuits (the
returned flag is whether to continue). -/
def slideStep (cur : PlayerC) (ray casters : Nat) (axis : PinAxis) :
    PlayerC × Bool :=
  if ray &&& casters ≠ 0 then
    let blockers := ray &&& cur.occupation
    if isASingleOne blockers then
      ({ cur with pins := cur.pins.add axis ray }, true)
    else if blockers = 0 then
      if cur.validTargets = bbFULL then
        ({ cur with validTargets := ray }, true)
      else
        ({ cur with kingMustMove := true }, false)
    else (cur, true)
  else (cur, true)

/-- The eight `update!` invocations in source order, with the non-local
early return of the macro. -/
def slideLoop (cur : PlayerC) : List (Nat × Nat × PinAxis) → PlayerC
  | [] => cur
  | step :: rest =>
      let r := slideStep cur step.1 step.2.1 step.2.2
      if r.2 then slideLoop r.1 rest else r.1

/-- `Board::update_slide_constraints`. -/
def updateSlideConstraints (b : BoardC) : BoardC :=
  let diagonalSliders := b.opposingPlayer.bishops ||| b.opposingPlayer.queens
  let crossSliders := b.opposingPlayer.rooks ||| b.opposingPlayer.queens
  let kingSquare := firstOneSquare b.currentPlayer.king
  let rook := separatedRookSlides kingSquare b.opposingPlayer.occupation
  let bishop := separatedBishopSlides kingSquare b.opposingPlayer.occupation
  { b with
    currentPlayer :=
      slideLoop b.currentPlayer
        [(rook.1, crossSliders, .vertical),
         (bishop.2.1, diagonalSliders, .diagonal),
         (rook.2.1, crossSliders, .horizontal),
         (bishop.2.2.1, diagonalSliders, .antiDiagonal),
         (rook.2.2.1, crossSliders, .vertical),
         (bishop.2.2.2, diagonalSliders, .diagonal),
         (rook.2.2.2, crossSliders, .horizontal),
         (bishop.1, diagonalSliders, .antiDiagonal)] }

/-- `Board::update_non_slide_constraints`: enemy knights attacking the king
square, plus enemy pawns on the king's relative up-left/up-right squares;
one attacker restricts `valid_targets` (double check if already
restricted), two or more force `king_must_move`. -/
def updateNonSlideConstraints (b : BoardC) : BoardC :=
  if b.currentPlayer.kingMustMove then b
  else
    let attackers :=
      (knightAttacks (firstOneSquare b.currentPlayer.king) &&&
        b.opposingPlayer.knights) |||
      ((moveOneUpLeft b.currentColor b.currentPlayer.king |||
        moveOneUpRight b.currentColor b.currentPlayer.king) &&&
        b.opposingPlayer.pawns)
    if isASingleOne attackers then
      if b.currentPlayer.validTargets = bbFULL then
        { b with currentPlayer := { b.currentPlayer with validTargets := attackers } }
      else
        { b with currentPlayer := { b.currentPlayer with kingMustMove := true } }
    else if attackers ≠ 0 then
      { b with currentPlayer := { b.currentPlayer with kingMustMove := true } }
    else b

/-- `Board::update_move_constraints`: reset `king_must_move`, `pins` and
`valid_targets`, then run the slide and non-slide passes.  (Modelled from
the spec: `mg::gen_dangers`, called between the reset and the passes,
computes the opponent-attacked squares consumed by king-move generation and
does not modify `king_must_move`, `pins` or `valid_targets`; it is omitted
here.) -/
def updateMoveConstraints (b : BoardC) : BoardC :=
  updateNonSlideConstraints (updateSlideConstraints
    { b with currentPlayer := { b.currentPlayer with
        kingMustMove := false, pins := Pins.EMPTY, validTargets := bbFULL } })

/-- White king on E1, Black queen on E8, empty e-file between. -/
def scenarioCheck : BoardC where
  currentPlayer :=
    { pawns := 0, knights := 0, bishops := 0, rooks := 0, queens := 0,
      king := squareBB sqE1, occupation := squareBB sqE1,
      pins := Pins.EMPTY, validTargets := 0, kingMustMove := false }
  opposingPlayer :=
    { pawns := 0, knights := 0, bishops := 0, rooks := 0,
      queens := squareBB sqE8, king := 0, occupation := squareBB sqE8,
      pins := Pins.EMPTY, validTargets := 0, kingMustMove := false }
  currentColor := .white

/-- The same position with a White pawn added on E4. -/
def scenarioPinned : BoardC where
  currentPlayer :=
    { pawns := squareBB ⟨28, by decide⟩, knights := 0, bishops := 0, rooks := 0,
      queens := 0, king := squareBB sqE1,
      occupation := squareBB sqE1 ||| squareBB ⟨28, by decide⟩,
      pins := Pins.EMPTY, validTargets := 0, kingMustMove := false }
  opposingPlayer :=
    { pawns := 0, knights := 0, bishops := 0, rooks := 0,
      queens := squareBB sqE8, king := 0, occupation := squareBB sqE8,
      pins := Pins.EMPTY, validTargets := 0, kingMustMove := false }
  currentColor := .white

/-! ## Claim C2 -/

/-- C2: with White to move, White king on E1 and Black queen on E8 on an
otherwise empty e-file, `update_move_constraints` leaves `king_must_move`
false and `pins.vertical` empty and restricts `valid_targets` to exactly
the e-file squares E2 through E8 (the check ray, queen included); with a
single White piece added on E4, `king_must_move` stays false,
`valid_targets` stays `FULL`, and the piece's square E4 is added to
`pins.vertical`. -/
theorem update_move_constraints_efile_scenarios :
    ((updateMoveConstraints scenarioCheck).currentPlayer.kingMustMove = false ∧
     (updateMoveConstraints scenarioCheck).currentPlayer.pins.vertical = bbEMPTY ∧
     (updateMoveConstraints scenarioCheck).currentPlayer.validTargets =
       0x1010101010101000) ∧
    ((updateMoveConstraints scenarioPinned).currentPlayer.kingMustMove = false ∧
     (updateMoveConstraints scenarioPinned).currentPlayer.validTargets = bbFULL ∧
     getBit (updateMoveConstraints scenarioPinned).currentPlayer.pins.vertical
       ⟨28, by decide⟩ = true) := by
  decide


/-! ## Subset enumeration: the carry rippler
(`crates/mangrove-bootstrap/src/bitboard.rs::subsets` /
`PartialSubsetIter::next`, claim C4)

`PartialSubsetIter::next` computes `subset = subset.wrapping_sub(bitboard)
& bitboard` and stops at zero; `subsets()` is `once(EMPTY)` followed by
that stream from `subset = 0`.  The width-64 wrapping subtraction is
`(s + (2 ^ 64 - b)) % 2 ^ 64`; the development is over a general width `w`
so the even/odd structure of `b` can drive the induction.  The lazy
iterator becomes a fuelled list; `2 ^ w` fuel is shown to suffice, which is
the termination (finiteness) of the stream. -/

/-- One `PartialSubsetIter::next` computation at width `w`:
`wrapping_sub(s, b) & b`. -/
def subsetStep (w b s : Nat) : Nat := ((s + (2 ^ w - b)) % 2 ^ w) &&& b

/-- The fuelled stream of `PartialSubsetIter`: emit `subsetStep` results
until the step returns zero. -/
def subsetChain (w b : Nat) : Nat → Nat → List Nat
  | 0, _ => []
  | fuel + 1, s =>
      let t := subsetStep w b s
      if t = 0 then [] else t :: subsetChain w b fuel t

/-- `BitBoard::subsets()` at width `w`: `EMPTY` followed by the
carry-rippler stream from zero, with always-sufficient fuel `2 ^ w`. -/
def subsetsList (w b : Nat) : List Nat := 0 :: subsetChain w b (2 ^ w) 0

/-- `u64::count_ones`, fuelled (any fuel at least the argument works). -/
def countOnesAux : Nat → Nat → Nat
  | 0, _ => 0
  | fuel + 1, b => if b = 0 then 0 else b % 2 + countOnesAux fuel (b / 2)

/-- `BitBoard::count_ones` (`u64::count_ones`): the number of set bits. -/
def countOnes (b : Nat) : Nat := countOnesAux b b

/-- The reference enumeration the carry rippler is proved equal to, by the
binary structure of the mask: no nonzero subsets for `0`; for an even mask
the doubled enumeration of its half; for an odd mask the low bit first,
then each subset of the half with the low bit clear and set. -/
def subsetRefAux : Nat → Nat → List Nat
  | 0, _ => []
  | fuel + 1, b =>
      if b = 0 then []
      else if b % 2 = 0 then (subsetRefAux fuel (b / 2)).map (fun x => 2 * x)
      else 1 :: (subsetRefAux fuel (b / 2)).flatMap (fun x => [2 * x, 2 * x + 1])

def subsetRef (b : Nat) : List Nat := subsetRefAux b b

/-! ### Parity decompositions of `&&&` and the disjoint-add identity -/

theorem and_double (x y : Nat) : (2 * x) &&& (2 * y) = 2 * (x &&& y) := by
  have h2 : ((2 * x) &&& (2 * y)) / 2 = x &&& y := by
    rw [Nat.and_div_two]
    congr 1 <;> omega
  have h1 : ((2 * x) &&& (2 * y)) % 2 = 0 := by
    rcases Nat.mod_two_eq_zero_or_one ((2 * x) &&& (2 * y)) with hm | hm
    · exact hm
    · have := Nat.and_mod_two_eq_one.mp hm
      omega
  omega

theorem and_double_succ (x y : Nat) : (2 * x) &&& (2 * y + 1) = 2 * (x &&& y) := by
  have h2 : ((2 * x) &&& (2 * y + 1)) / 2 = x &&& y := by
    rw [Nat.and_div_two]
    congr 1 <;> omega
  have h1 : ((2 * x) &&& (2 * y + 1)) % 2 = 0 := by
    rcases Nat.mod_two_eq_zero_or_one ((2 * x) &&& (2 * y + 1)) with hm | hm
    · exact hm
    · have := Nat.and_mod_two_eq_one.mp hm
      omega
  omega

theorem and_succ_succ (x y : Nat) :
    (2 * x + 1) &&& (2 * y + 1) = 2 * (x &&& y) + 1 := by
  have h2 : ((2 * x + 1) &&& (2 * y + 1)) / 2 = x &&& y := by
    rw [Nat.and_div_two]
    congr 1 <;> omega
  have h1 : ((2 * x + 1) &&& (2 * y + 1)) % 2 = 1 := by
    apply Nat.and_mod_two_eq_one.mpr
    omega
  omega

theorem xor_mod_two (x y : Nat) : (x ^^^ y) % 2 = (x % 2 + y % 2) % 2 := by
  have h := Nat.xor_mod_two_eq_one (a := x) (b := y)
  rcases Nat.mod_two_eq_zero_or_one x with h1 | h1 <;>
    rcases Nat.mod_two_eq_zero_or_one y with h2 | h2 <;>
      rcases Nat.mod_two_eq_zero_or_one (x ^^^ y) with h3 | h3 <;>
        rw [h1, h2, h3] at h ⊢ <;> simp_all

/-- Numbers with disjoint bits add like they XOR. -/
theorem add_eq_xor_of_and_eq_zero :
    ∀ x y : Nat, x &&& y = 0 → x + y = x ^^^ y := by
  intro x
  induction x using Nat.strong_induction_on with
  | _ x ih =>
    intro y h
    rcases Nat.eq_zero_or_pos x with rfl | hx
    · simp
    · have hdiv : x / 2 < x := Nat.div_lt_self hx (by norm_num)
      have hand : (x / 2) &&& (y / 2) = 0 := by
        rw [← Nat.and_div_two, h]
      have hIH := ih (x / 2) hdiv (y / 2) hand
      have hxordiv : (x ^^^ y) / 2 = x / 2 ^^^ y / 2 := Nat.xor_div_two
      have hm := xor_mod_two x y
      have hnand : x % 2 + y % 2 ≤ 1 := by
        by_contra hc
        have h1 : x % 2 = 1 ∧ y % 2 = 1 := by omega
        have h2 := Nat.and_mod_two_eq_one.mpr h1
        rw [h] at h2
        omega
      omega

/-- In-mask complement within a width: for a subset `s` of `b < 2 ^ w`,
`(s + 2 ^ w - b - 1) &&& b = s`.  This is the bit identity behind the
carry rippler's wrap step. -/
theorem mask_complement (w b s : Nat) (hb : b < 2 ^ w) (hs : s &&& b = s) :
    (s + 2 ^ w - b - 1) &&& b = s := by
  have hsub : s ≤ b := hs ▸ Nat.and_le_right
  have hdisj : s &&& (b ^^^ s) = 0 := by
    rw [Nat.and_xor_distrib_left, Nat.and_comm s b, Nat.and_self,
      Nat.and_comm b s, hs, Nat.xor_self]
  have hadd : s + (b ^^^ s) = b := by
    rw [add_eq_xor_of_and_eq_zero _ _ hdisj, Nat.xor_comm s (b ^^^ s),
      Nat.xor_assoc, Nat.xor_self, Nat.xor_zero]
  have hd : b - s = b ^^^ s := by omega
  have hdb : b < 2 ^ w := hb
  have hdlt : b ^^^ s < 2 ^ w :=
    Nat.xor_lt_two_pow hb (lt_of_le_of_lt hsub hb)
  have hdisj2 : (b ^^^ s) &&& ((2 ^ w - 1) ^^^ (b ^^^ s)) = 0 := by
    rw [Nat.and_xor_distrib_left,
      Nat.and_pow_two_sub_one_of_lt_two_pow hdlt, Nat.and_self, Nat.xor_self]
  have hadd2 : (b ^^^ s) + ((2 ^ w - 1) ^^^ (b ^^^ s)) = 2 ^ w - 1 := by
    rw [add_eq_xor_of_and_eq_zero _ _ hdisj2, Nat.xor_comm (b ^^^ s),
      Nat.xor_assoc, Nat.xor_self, Nat.xor_zero]
  have hcompl : s + 2 ^ w - b - 1 = (2 ^ w - 1) ^^^ (b ^^^ s) := by omega
  rw [hcompl, Nat.and_xor_distrib_right,
    Nat.and_comm (2 ^ w - 1) b,
    Nat.and_pow_two_sub_one_of_lt_two_pow hb,
    Nat.and_xor_distrib_right, Nat.and_self, hs,
    Nat.xor_cancel_left]

/-! ### The three step identities of the carry rippler -/

theorem subsetStep_zero_mask (w s : Nat) : subsetStep w 0 s = 0 := by
  unfold subsetStep
  exact Nat.and_zero _

theorem subsetStep_and (w b s : Nat) : subsetStep w b s &&& b = subsetStep w b s := by
  unfold subsetStep
  rw [Nat.and_assoc, Nat.and_self]

theorem subsetStep_even (w b s : Nat) (hb : b ≤ 2 ^ w) :
    subsetStep (w + 1) (2 * b) (2 * s) = 2 * subsetStep w b s := by
  unfold subsetStep
  have hp : 2 ^ (w + 1) = 2 * 2 ^ w := by ring
  have h1 : 2 * s + (2 ^ (w + 1) - 2 * b) = 2 * (s + (2 ^ w - b)) := by omega
  rw [h1, hp, Nat.mul_mod_mul_left, and_double]

theorem subsetStep_odd_even (w b s : Nat) (hb : b < 2 ^ w) (hs : s &&& b = s) :
    subsetStep (w + 1) (2 * b + 1) (2 * s) = 2 * s + 1 := by
  unfold subsetStep
  have hp : 2 ^ (w + 1) = 2 * 2 ^ w := by ring
  have hsub : s ≤ b := hs ▸ Nat.and_le_right
  have hlt : 2 * s + (2 ^ (w + 1) - (2 * b + 1)) < 2 ^ (w + 1) := by omega
  rw [Nat.mod_eq_of_lt hlt]
  have h1 : 2 * s + (2 ^ (w + 1) - (2 * b + 1)) =
      2 * (s + 2 ^ w - b - 1) + 1 := by omega
  rw [h1, and_succ_succ, mask_complement w b s hb hs]

theorem subsetStep_odd_odd (w b s : Nat) (hb : b < 2 ^ w) :
    subsetStep (w + 1) (2 * b + 1) (2 * s + 1) = 2 * subsetStep w b s := by
  unfold subsetStep
  have hp : 2 ^ (w + 1) = 2 * 2 ^ w := by ring
  have h1 : 2 * s + 1 + (2 ^ (w + 1) - (2 * b + 1)) = 2 * (s + (2 ^ w - b)) := by
    omega
  rw [h1, hp, Nat.mul_mod_mul_left, and_double_succ]


/-! ### Structure of the fuelled chain -/

theorem subsetChain_zero_mask (w : Nat) :
    ∀ fuel s, subsetChain w 0 fuel s = [] := by
  intro fuel s
  cases fuel with
  | zero => rfl
  | succ f =>
      show (let t := subsetStep w 0 s; if t = 0 then [] else t :: subsetChain w 0 f t) = []
      rw [subsetStep_zero_mask]
      rfl

theorem subsetChain_mem_and (w b : Nat) :
    ∀ fuel s x, x ∈ subsetChain w b fuel s → x &&& b = x := by
  intro fuel
  induction fuel with
  | zero => intro s x hx; cases hx
  | succ f ih =>
    intro s x hx
    rw [subsetChain] at hx
    by_cases ht : subsetStep w b s = 0
    · rw [if_pos ht] at hx
      cases hx
    · rw [if_neg ht] at hx
      rcases List.mem_cons.mp hx with rfl | hx
      · exact subsetStep_and w b s
      · exact ih _ x hx

theorem subsetChain_mem_ne_zero (w b : Nat) :
    ∀ fuel s x, x ∈ subsetChain w b fuel s → x ≠ 0 := by
  intro fuel
  induction fuel with
  | zero => intro s x hx; cases hx
  | succ f ih =>
    intro s x hx
    rw [subsetChain] at hx
    by_cases ht : subsetStep w b s = 0
    · rw [if_pos ht] at hx
      cases hx
    · rw [if_neg ht] at hx
      rcases List.mem_cons.mp hx with rfl | hx
      · exact ht
      · exact ih _ x hx

/-- The chain is independent of the fuel as soon as the fuel exceeds the
list it produces: the stream genuinely terminates. -/
theorem subsetChain_det (w b : Nat) :
    ∀ (l : List Nat) (f1 f2 s : Nat), subsetChain w b f1 s = l →
      l.length < f1 → l.length < f2 → subsetChain w b f2 s = l := by
  intro l
  induction l with
  | nil =>
    intro f1 f2 s h h1 h2
    obtain ⟨g1, rfl⟩ : ∃ g1, f1 = g1 + 1 := ⟨f1 - 1, by omega⟩
    obtain ⟨g2, rfl⟩ : ∃ g2, f2 = g2 + 1 := ⟨f2 - 1, by omega⟩
    rw [subsetChain] at h ⊢
    by_cases ht : subsetStep w b s = 0
    · rw [if_pos ht]
    · rw [if_neg ht] at h
      cases h
  | cons x l ih =>
    intro f1 f2 s h h1 h2
    obtain ⟨g1, rfl⟩ : ∃ g1, f1 = g1 + 1 :=
      ⟨f1 - 1, by simp only [List.length_cons] at h1; omega⟩
    obtain ⟨g2, rfl⟩ : ∃ g2, f2 = g2 + 1 :=
      ⟨f2 - 1, by simp only [List.length_cons] at h2; omega⟩
    rw [subsetChain] at h ⊢
    by_cases ht : subsetStep w b s = 0
    · rw [if_pos ht] at h
      cases h
    · rw [if_neg ht] at h ⊢
      have hx : subsetStep w b s = x := (List.cons.injEq _ _ _ _ ▸ h).1
      have hrest : subsetChain w b g1 (subsetStep w b s) = l :=
        (List.cons.injEq _ _ _ _ ▸ h).2
      rw [hx] at hrest ⊢
      rw [ih g1 g2 x hrest
        (by simp only [List.length_cons] at h1; omega)
        (by simp only [List.length_cons] at h2; omega)]

/-- Doubling the mask and the state doubles the whole chain, in lockstep. -/
theorem subsetChain_even (w b : Nat) (hb : b ≤ 2 ^ w) :
    ∀ fuel s, subsetChain (w + 1) (2 * b) fuel (2 * s) =
      (subsetChain w b fuel s).map (fun x => 2 * x) := by
  intro fuel
  induction fuel with
  | zero => intro s; rfl
  | succ f ih =>
    intro s
    rw [subsetChain, subsetChain]
    rw [show subsetStep (w + 1) (2 * b) (2 * s) = 2 * subsetStep w b s from
      subsetStep_even w b s hb]
    by_cases ht : subsetStep w b s = 0
    · rw [if_pos (by omega : 2 * subsetStep w b s = 0), if_pos ht]
      rfl
    · rw [if_neg (by omega : ¬ 2 * subsetStep w b s = 0), if_neg ht]
      rw [List.map_cons, ih (subsetStep w b s)]

/-- For an odd mask `2b+1`, the chain from an odd state `2s+1` (with
`s ⊆ b`) is the pairwise doubling-and-incrementing of the chain for `b`
from `s`: each subset of `b` contributes its low-bit-clear and low-bit-set
forms, in order. -/
theorem subsetChain_odd (w b : Nat) (hb : b < 2 ^ w) :
    ∀ (fuel s : Nat) (l : List Nat), s &&& b = s → subsetChain w b fuel s = l →
      subsetChain (w + 1) (2 * b + 1) (2 * fuel) (2 * s + 1) =
        l.flatMap (fun x => [2 * x, 2 * x + 1]) := by
  intro fuel
  induction fuel with
  | zero =>
    intro s l hs h
    cases h
    rfl
  | succ f ih =>
    intro s l hs h
    rw [subsetChain] at h
    rw [show 2 * (f + 1) = (2 * f + 1) + 1 from by omega, subsetChain]
    rw [show subsetStep (w + 1) (2 * b + 1) (2 * s + 1) = 2 * subsetStep w b s from
      subsetStep_odd_odd w b s hb]
    by_cases ht : subsetStep w b s = 0
    · rw [if_pos ht] at h
      cases h
      rw [if_pos (by omega : 2 * subsetStep w b s = 0)]
      rfl
    · rw [if_neg ht] at h
      cases h
      rw [if_neg (by omega : ¬ 2 * subsetStep w b s = 0)]
      rw [subsetChain]
      rw [show subsetStep (w + 1) (2 * b + 1) (2 * subsetStep w b s) =
          2 * subsetStep w b s + 1 from
        subsetStep_odd_even w b (subsetStep w b s) hb (subsetStep_and w b s)]
      rw [if_neg (by omega : ¬ 2 * subsetStep w b s + 1 = 0)]
      rw [ih (subsetStep w b s) (subsetChain w b f (subsetStep w b s))
        (subsetStep_and w b s) rfl]
      rfl


/-! ### The reference enumeration and the bit count -/

theorem countOnesAux_congr :
    ∀ b f g : Nat, b ≤ f → b ≤ g → countOnesAux f b = countOnesAux g b := by
  intro b
  induction b using Nat.strong_induction_on with
  | _ b ih =>
    intro f g hf hg
    rcases Nat.eq_zero_or_pos b with rfl | hb
    · cases f <;> cases g <;> rfl
    · obtain ⟨f1, rfl⟩ : ∃ f1, f = f1 + 1 := ⟨f - 1, by omega⟩
      obtain ⟨g1, rfl⟩ : ∃ g1, g = g1 + 1 := ⟨g - 1, by omega⟩
      rw [countOnesAux, countOnesAux, if_neg (by omega), if_neg (by omega)]
      rw [ih (b / 2) (by omega) f1 g1 (by omega) (by omega)]

theorem countOnes_zero : countOnes 0 = 0 := rfl

theorem countOnes_even (b : Nat) (hb : b ≠ 0) (he : b % 2 = 0) :
    countOnes b = countOnes (b / 2) := by
  unfold countOnes
  rw [countOnesAux_congr b b (b + 1) le_rfl (by omega),
    countOnesAux, if_neg hb, he, Nat.zero_add,
    countOnesAux_congr (b / 2) b (b / 2) (by omega) le_rfl]

theorem countOnes_odd (b : Nat) (ho : b % 2 = 1) :
    countOnes b = countOnes (b / 2) + 1 := by
  unfold countOnes
  rw [countOnesAux_congr b b (b + 1) le_rfl (by omega),
    countOnesAux, if_neg (by omega), ho,
    countOnesAux_congr (b / 2) b (b / 2) (by omega) le_rfl, Nat.add_comm]

theorem countOnes_le_width :
    ∀ b w : Nat, b < 2 ^ w → countOnes b ≤ w := by
  intro b
  induction b using Nat.strong_induction_on with
  | _ b ih =>
    intro w hw
    rcases Nat.eq_zero_or_pos b with rfl | hb
    · simp [countOnes_zero]
    · obtain ⟨w1, rfl⟩ : ∃ w1, w = w1 + 1 := by
        cases w with
        | zero => simp at hw; omega
        | succ n => exact ⟨n, rfl⟩
      have hp : 2 ^ (w1 + 1) = 2 * 2 ^ w1 := by ring
      have hhalf : b / 2 < 2 ^ w1 := by omega
      rcases Nat.mod_two_eq_zero_or_one b with he | ho
      · rw [countOnes_even b (by omega) he]
        exact le_trans (ih (b / 2) (by omega) w1 hhalf) (by omega)
      · rw [countOnes_odd b ho]
        exact Nat.succ_le_succ (ih (b / 2) (by omega) w1 hhalf)

theorem subsetRefAux_congr :
    ∀ b f g : Nat, b ≤ f → b ≤ g → subsetRefAux f b = subsetRefAux g b := by
  intro b
  induction b using Nat.strong_induction_on with
  | _ b ih =>
    intro f g hf hg
    rcases Nat.eq_zero_or_pos b with rfl | hb
    · cases f <;> cases g <;> rfl
    · obtain ⟨f1, rfl⟩ : ∃ f1, f = f1 + 1 := ⟨f - 1, by omega⟩
      obtain ⟨g1, rfl⟩ : ∃ g1, g = g1 + 1 := ⟨g - 1, by omega⟩
      rw [subsetRefAux, subsetRefAux]
      rw [ih (b / 2) (by omega) f1 g1 (by omega) (by omega)]

theorem subsetRef_zero : subsetRef 0 = [] := rfl

theorem subsetRef_even (b : Nat) (hb : b ≠ 0) (he : b % 2 = 0) :
    subsetRef b = (subsetRef (b / 2)).map (fun x => 2 * x) := by
  unfold subsetRef
  rw [subsetRefAux_congr b b (b + 1) le_rfl (by omega),
    subsetRefAux, if_neg hb, if_pos he,
    subsetRefAux_congr (b / 2) b (b / 2) (by omega) le_rfl]

theorem subsetRef_odd (b : Nat) (ho : b % 2 = 1) :
    subsetRef b = 1 :: (subsetRef (b / 2)).flatMap (fun x => [2 * x, 2 * x + 1]) := by
  unfold subsetRef
  rw [subsetRefAux_congr b b (b + 1) le_rfl (by omega),
    subsetRefAux, if_neg (by omega), if_neg (by omega),
    subsetRefAux_congr (b / 2) b (b / 2) (by omega) le_rfl]

theorem flatMap_pair_length (l : List Nat) :
    (l.flatMap (fun x => [2 * x, 2 * x + 1])).length = 2 * l.length := by
  induction l with
  | nil => rfl
  | cons x l ih =>
    simp only [List.flatMap_cons, List.length_append, List.length_cons, ih,
      List.length_nil]
    omega

theorem subsetRef_length (b : Nat) :
    (subsetRef b).length = 2 ^ countOnes b - 1 := by
  induction b using Nat.strong_induction_on with
  | _ b ih =>
    rcases Nat.eq_zero_or_pos b with rfl | hb
    · simp [subsetRef_zero, countOnes_zero]
    · rcases Nat.mod_two_eq_zero_or_one b with he | ho
      · rw [subsetRef_even b (by omega) he, List.length_map,
          ih (b / 2) (by omega), countOnes_even b (by omega) he]
      · rw [subsetRef_odd b ho, List.length_cons, flatMap_pair_length,
          ih (b / 2) (by omega), countOnes_odd b ho]
        have hp : 2 ^ (countOnes (b / 2) + 1) = 2 * 2 ^ countOnes (b / 2) := by
          ring
        have h1 : 1 ≤ 2 ^ countOnes (b / 2) := Nat.one_le_two_pow
        omega

theorem subsetRef_ne_zero :
    ∀ b : Nat, ∀ x ∈ subsetRef b, x ≠ 0 := by
  intro b
  induction b using Nat.strong_induction_on with
  | _ b ih =>
    intro x hx
    rcases Nat.eq_zero_or_pos b with rfl | hb
    · rw [subsetRef_zero] at hx
      cases hx
    · rcases Nat.mod_two_eq_zero_or_one b with he | ho
      · rw [subsetRef_even b (by omega) he] at hx
        obtain ⟨y, hy, rfl⟩ := List.mem_map.mp hx
        have := ih (b / 2) (by omega) y hy
        omega
      · rw [subsetRef_odd b ho] at hx
        rcases List.mem_cons.mp hx with rfl | hx
        · omega
        · obtain ⟨y, hy, hmem⟩ := List.mem_flatMap.mp hx
          have hyne := ih (b / 2) (by omega) y hy
          simp only [List.mem_cons, List.mem_singleton] at hmem
          rcases hmem with rfl | hmem
          · omega
          · simp only [List.mem_cons, List.not_mem_nil, or_false] at hmem
            omega

theorem subsetRef_nodup (b : Nat) : (subsetRef b).Nodup := by
  induction b using Nat.strong_induction_on with
  | _ b ih =>
    rcases Nat.eq_zero_or_pos b with rfl | hb
    · rw [subsetRef_zero]
      exact List.nodup_nil
    · rcases Nat.mod_two_eq_zero_or_one b with he | ho
      · rw [subsetRef_even b (by omega) he]
        exact (ih (b / 2) (by omega)).map (fun a c h => by omega)
      · rw [subsetRef_odd b ho]
        refine List.nodup_cons.mpr ⟨?_, ?_⟩
        · intro hmem
          obtain ⟨y, hy, hm⟩ := List.mem_flatMap.mp hmem
          have hyne := subsetRef_ne_zero (b / 2) y hy
          simp only [List.mem_cons, List.mem_singleton, List.not_mem_nil,
            or_false] at hm
          rcases hm with hm | hm <;> omega
        · refine List.nodup_flatMap.mpr ⟨fun x _ => ?_, ?_⟩
          · refine List.nodup_cons.mpr ⟨?_, List.nodup_singleton _⟩
            simp only [List.mem_singleton]
            omega
          · refine (ih (b / 2) (by omega)).imp ?_
            intro a c hac
            intro z hz1 hz2
            simp only [List.mem_cons, List.mem_singleton, List.not_mem_nil,
              or_false] at hz1 hz2
            rcases hz1 with rfl | rfl <;> rcases hz2 with h | h <;> omega

theorem subsetRef_mem_self :
    ∀ b : Nat, b ≠ 0 → b ∈ subsetRef b := by
  intro b
  induction b using Nat.strong_induction_on with
  | _ b ih =>
    intro hb
    rcases Nat.mod_two_eq_zero_or_one b with he | ho
    · rw [subsetRef_even b hb he]
      refine List.mem_map.mpr ⟨b / 2, ih (b / 2) (by omega) (by omega), by omega⟩
    · rw [subsetRef_odd b ho]
      rcases Nat.eq_zero_or_pos (b / 2) with hz | hpos
      · have hb1 : b = 1 := by omega
        rw [hb1]
        exact List.mem_cons_self _ _
      · refine List.mem_cons.mpr (Or.inr ?_)
        refine List.mem_flatMap.mpr ⟨b / 2, ih (b / 2) (by omega) (by omega), ?_⟩
        simp only [List.mem_cons, List.mem_singleton, List.not_mem_nil, or_false]
        omega


/-- The carry-rippler stream from zero, with any sufficient fuel, is exactly
the reference enumeration of the nonzero subsets of the mask. -/
theorem subsetChain_eq_ref :
    ∀ b w : Nat, b < 2 ^ w → ∀ fuel, (subsetRef b).length < fuel →
      subsetChain w b fuel 0 = subsetRef b := by
  intro b
  induction b using Nat.strong_induction_on with
  | _ b ih =>
    intro w hw fuel hfuel
    rcases Nat.eq_zero_or_pos b with rfl | hb
    · rw [subsetChain_zero_mask, subsetRef_zero]
    · obtain ⟨w1, rfl⟩ : ∃ w1, w = w1 + 1 := by
        cases w with
        | zero => simp at hw; omega
        | succ n => exact ⟨n, rfl⟩
      have hp : 2 ^ (w1 + 1) = 2 * 2 ^ w1 := by ring
      rcases Nat.mod_two_eq_zero_or_one b with he | ho
      · -- even mask: lockstep with the halved mask
        have hb2 : 2 * (b / 2) = b := by omega
        have hhalf : b / 2 ≤ 2 ^ w1 := by omega
        have heven := subsetChain_even w1 (b / 2) hhalf fuel 0
        rw [Nat.mul_zero, hb2] at heven
        have hlen : (subsetRef (b / 2)).length = (subsetRef b).length := by
          rw [subsetRef_even b (by omega) he, List.length_map]
        rw [heven, ih (b / 2) (by omega) w1 (by omega) fuel (by omega),
          ← subsetRef_even b (by omega) he]
      · -- odd mask: one step to 1, then the interleaved chain
        have hb2 : 2 * (b / 2) + 1 = b := by omega
        have hhalf : b / 2 < 2 ^ w1 := by omega
        obtain ⟨fuel1, rfl⟩ : ∃ f1, fuel = f1 + 1 := ⟨fuel - 1, by omega⟩
        rw [subsetChain]
        have hstep : subsetStep (w1 + 1) b 0 = 1 := by
          have h0 := subsetStep_odd_even w1 (b / 2) 0 hhalf (Nat.zero_and _)
          rw [Nat.mul_zero, hb2] at h0
          rw [h0]
        rw [hstep, if_neg (by omega : ¬ (1 : Nat) = 0)]
        have hrefhalf : subsetChain w1 (b / 2) ((subsetRef (b / 2)).length + 1) 0 =
            subsetRef (b / 2) :=
          ih (b / 2) (by omega) w1 hhalf _ (by omega)
        have hodd := subsetChain_odd w1 (b / 2) hhalf
          ((subsetRef (b / 2)).length + 1) 0 (subsetRef (b / 2))
          (Nat.zero_and _) hrefhalf
        rw [Nat.mul_zero, Nat.zero_add, hb2] at hodd
        have hlenb : (subsetRef b).length = 1 + 2 * (subsetRef (b / 2)).length := by
          rw [subsetRef_odd b ho, List.length_cons, flatMap_pair_length]
          omega
        have hdet := subsetChain_det (w1 + 1) b _ _ fuel1 1 hodd
          (by rw [flatMap_pair_length]; omega)
          (by rw [flatMap_pair_length]; omega)
        rw [hdet, ← subsetRef_odd b ho]

/-! ## Claim C4 -/

/-- C4: for every 64-bit mask `b`, the sequence produced by `b.subsets()` is
finite and deterministic — it is the fuelled pure function `subsetsList`,
whose stream terminates within its fuel — and yields exactly
`2 ^ count_ones b` pairwise-distinct values, each satisfying
`x &&& b = x`, with `EMPTY` occurring exactly once and `b` itself occurring
exactly once. -/
theorem subsets_enumeration (b : Nat) (hb : b < 2 ^ 64) :
    (subsetsList 64 b).length = 2 ^ countOnes b ∧
    (subsetsList 64 b).Nodup ∧
    (∀ x ∈ subsetsList 64 b, x &&& b = x) ∧
    (subsetsList 64 b).count 0 = 1 ∧
    (subsetsList 64 b).count b = 1 := by
  have hcount : countOnes b ≤ 64 := countOnes_le_width b 64 hb
  have hlenref : (subsetRef b).length = 2 ^ countOnes b - 1 := subsetRef_length b
  have hlt : (subsetRef b).length < 2 ^ 64 := by
    have h1 : (2 : Nat) ^ countOnes b ≤ 2 ^ 64 :=
      Nat.pow_le_pow_right (by norm_num) hcount
    have h2 : 1 ≤ 2 ^ countOnes b := Nat.one_le_two_pow
    omega
  have hchain : subsetChain 64 b (2 ^ 64) 0 = subsetRef b :=
    subsetChain_eq_ref b 64 hb (2 ^ 64) hlt
  have hsub : ∀ x ∈ subsetsList 64 b, x &&& b = x := by
    intro x hx
    rcases List.mem_cons.mp hx with rfl | hx
    · exact Nat.zero_and b
    · exact subsetChain_mem_and 64 b (2 ^ 64) 0 x hx
  have hzero_notin : (0 : Nat) ∉ subsetChain 64 b (2 ^ 64) 0 :=
    fun h => subsetChain_mem_ne_zero 64 b (2 ^ 64) 0 0 h rfl
  refine ⟨?_, ?_, hsub, ?_, ?_⟩
  · show (0 :: subsetChain 64 b (2 ^ 64) 0).length = 2 ^ countOnes b
    rw [List.length_cons, hchain, hlenref]
    have h2 : 1 ≤ 2 ^ countOnes b := Nat.one_le_two_pow
    omega
  · show (0 :: subsetChain 64 b (2 ^ 64) 0).Nodup
    rw [hchain] at hzero_notin ⊢
    exact List.nodup_cons.mpr ⟨hzero_notin, subsetRef_nodup b⟩
  · show (0 :: subsetChain 64 b (2 ^ 64) 0).count 0 = 1
    rw [List.count_cons, hchain]
    have : (subsetRef b).count 0 = 0 :=
      List.count_eq_zero.mpr (hchain ▸ hzero_notin)
    simp [this]
  · show (0 :: subsetChain 64 b (2 ^ 64) 0).count b = 1
    rcases Nat.eq_zero_or_pos b with rfl | hbpos
    · rw [List.count_cons, hchain, subsetRef_zero]
      simp
    · rw [List.count_cons, hchain]
      have hmem : b ∈ subsetRef b := subsetRef_mem_self b (by omega)
      have hone : (subsetRef b).count b = 1 :=
        List.count_eq_one_of_mem (subsetRef_nodup b) hmem
      simp only [hone, List.count_cons]
      have : ¬ (0 = b) := by omega
      simp [this]

/-- Witness for C4 at the concrete mask `b = 5` (bits 0 and 2). -/
theorem subsets_enumeration_witness :
    (subsetsList 64 5).length = 2 ^ countOnes 5 ∧
    (subsetsList 64 5).Nodup ∧
    (∀ x ∈ subsetsList 64 5, x &&& 5 = x) ∧
    (subsetsList 64 5).count 0 = 1 ∧
    (subsetsList 64 5).count 5 = 1 :=
  subsets_enumeration 5 (by norm_num)

end Mangrove
